import Mathlib

/-!
Verification of the `englishidioms` matching engine.

This file gives a shallow embedding of the idiom-matching engine:

* `I_getpatterns.py` : `combs`, `get_patterns` (search-pattern generation);
* `englishidioms/L_algorithm.py` : `get_match_span`, `is_it_sorted`, `longest`,
  `get_potential_matches`, `look_closer`, `find_idioms`.

Strings are modelled as `List Char` (Python spans are code-point offsets, so
list indices line up with Python's string indices).  The regular expressions
the engine builds are always of the shape `\b(f1|f2|...)\b` with
`re.IGNORECASE`, compiled from a list of plain literal word forms; we model
exactly that fragment: case-insensitive literal alternation anchored by word
boundaries on both sides, scanned left to right without overlap, first
alternative wins (Python's leftmost, ordered-alternation semantics).

Python code that can raise an uncaught `IndexError` (the `wf[0]` / `wf[c]`
word-form lookups) is modelled in `Except Unit`; the `try/except: pass` around
the per-occurrence record updates is modelled by an out-of-range-is-noop
update.  The WordNet lemmatizer is an external collaborator and is passed in
as a function argument `lem`.
-/

deriving instance DecidableEq for Except

/-- Convert a Lean string literal to the `List Char` representation used
throughout this development. -/
def str (s : String) : List Char := s.data

/-- Python `\w` on the ASCII fragment: letters, digits and underscore.
(An apostrophe is not a word character.) -/
def isWordChar (c : Char) : Bool := c.isAlphanum || c = '_'

/-- Lower-casing used to model `re.IGNORECASE` (ASCII-faithful). -/
def lowC (c : Char) : Char := c.toLower

/-- Python `str.split()` (split on whitespace runs, no empty words):
auxiliary accumulator version.  `acc` holds the current word reversed. -/
def pySplitAux : List Char → List Char → List (List Char)
  | [], acc => if acc = [] then [] else [acc.reverse]
  | c :: cs, acc =>
    if c.isWhitespace then
      if acc = [] then pySplitAux cs [] else acc.reverse :: pySplitAux cs []
    else pySplitAux cs (c :: acc)

/-- Python `str.split()`. -/
def pySplit (s : List Char) : List (List Char) := pySplitAux s []

/-- Python `' '.join(words)`. -/
def joinSpaces : List (List Char) → List Char
  | [] => []
  | [w] => w
  | w :: ws => w ++ ' ' :: joinSpaces ws

/-- Python substring test `needle in hay` (case sensitive). -/
def containsSub (needle : List Char) : List Char → Bool
  | [] => needle.isPrefixOf ([] : List Char)
  | c :: t => needle.isPrefixOf (c :: t) || containsSub needle t

/-- Python slice `s[a:b]` (clamping, empty when `b ≤ a`). -/
def pySlice (s : List Char) (a b : Nat) : List Char := (s.take b).drop a

/-- `len(x.strip().split())`: the number of whitespace-separated words. -/
def countWords (s : List Char) : Nat := (pySplit s).length

/-- Is the character at index `i` a word character (`false` out of range)? -/
def isWordAt (s : List Char) (i : Nat) : Bool :=
  match s.get? i with
  | some c => isWordChar c
  | none => false

/-- The regex word-boundary assertion `\b` at offset `p` of `s`. -/
def wordBoundary (s : List Char) (p : Nat) : Bool :=
  (if p = 0 then false else isWordAt s (p - 1)) != isWordAt s p

/-- Does alternative `f` match at offset `pos` (case-insensitive literal
followed by a closing `\b`)?  The opening `\b` is checked by the caller. -/
def altMatchAt (s : List Char) (pos : Nat) (f : List Char) : Bool :=
  let seg := (s.drop pos).take f.length
  seg.length = f.length && seg.map lowC = f.map lowC
    && wordBoundary s (pos + f.length)

/-- `'|'.join(forms)` produces one empty alternative when `forms` is empty
(the pattern `\b()\b`), otherwise the alternatives are the forms themselves. -/
def altsOfJoin (forms : List (List Char)) : List (List Char) :=
  if forms = [] then [[]] else forms

/-- Try to match the anchored alternation at offset `pos`: first alternative
that matches wins (Python's ordered alternation).  Returns the matched text
(as it occurs in `s`) and its span. -/
def tryMatchAt (alts : List (List Char)) (s : List Char) (pos : Nat) :
    Option (List Char × Nat × Nat) :=
  if wordBoundary s pos then
    match alts.find? (fun f => altMatchAt s pos f) with
    | some f => some ((s.drop pos).take f.length, pos, pos + f.length)
    | none => none
  else none

/-- Left-to-right non-overlapping scan (`re.finditer` / `re.findall`);
fuelled recursion, a zero-width match advances the scan position by one. -/
def findAllAux (alts : List (List Char)) (s : List Char) :
    Nat → Nat → List (List Char × Nat × Nat)
  | 0, _ => []
  | fuel + 1, pos =>
    if pos > s.length then []
    else
      match tryMatchAt alts s pos with
      | some (txt, a, b) =>
        (txt, a, b) ::
          (if b ≤ a then findAllAux alts s fuel (pos + 1)
           else findAllAux alts s fuel b)
      | none => findAllAux alts s fuel (pos + 1)

/-- All matches of `re.compile(rf"\b({'|'.join(forms)})\b", re.IGNORECASE)`
in `s`, with their spans, in order of occurrence. -/
def findAll (forms : List (List Char)) (s : List Char) :
    List (List Char × Nat × Nat) :=
  findAllAux (altsOfJoin forms) s (s.length + 2) 0

example : findAll [str "kick"] (str "kick the bucket") =
    [(str "kick", 0, 4)] := by decide

example : findAll [str "bucket"] (str "kick the bucket") =
    [(str "bucket", 9, 15)] := by decide

example : findAll [str "john's"] (str "bob john's cat") =
    [(str "john's", 4, 10)] := by decide

example : findAll [str "the"] (str "The THE theme") =
    [(str "The", 0, 3), (str "THE", 4, 7)] := by decide

example : pySplit (str "  a bb  c ") = [str "a", str "bb", str "c"] := by decide

example : containsSub (str "for") (str "information") = true := by decide

example : containsSub (str "for") (str "I want it") = false := by decide

/-! ### Python `sorted`

`is_it_sorted` uses `sorted` on a flat list of integers (ascending), and
`look_closer`'s final ranking uses `sorted(..., key=lambda x: x[1],
reverse=True)`, which is a *stable* descending sort by the match count.
Both are modelled by stable insertion sorts, which agree extensionally with
Python's stable Timsort. -/

/-- Insert into an ascending-sorted list of naturals. -/
def insertAsc (n : Nat) : List Nat → List Nat
  | [] => [n]
  | m :: t => if n ≤ m then n :: m :: t else m :: insertAsc n t

/-- Python `sorted` on a list of naturals (ascending). -/
def pySortNat : List Nat → List Nat
  | [] => []
  | x :: t => insertAsc x (pySortNat t)

/-! ### Data model (`phrases.json`)

One `DictionaryEntry` per idiom variant.  `word_forms` holds, for each unit
of `runs`, one inflection list per constituent word; for `variable` units the
corpus stores the string sentinel `"NA"`, which the engine never inspects
(every access is guarded by a tag test), so it is modelled as `[]`. -/

structure DictionaryEntry where
  id : Nat
  range : List Nat
  phrase : List Char
  phrase_html : List Char
  definition : List Char
  definition_html : List Char
  alt : List (List Char)
  runs : List (List Char)
  patterns : List (List Char)
  word_forms : List (List (List (List Char)))
  multiple : Bool
  duplicate : Bool
deriving DecidableEq

/-! ### `I_getpatterns.py` : `get_patterns` -/

/-- One step of `combs`: Python's `cs += [c, c + [items[0]]]` over the
recursive result. -/
def combsAux (x : List Char) :
    List (List (List Char)) → List (List (List Char))
  | [] => []
  | c :: rest => c :: (c ++ [x]) :: combsAux x rest

/-- `combs(items)`: all combinations (sub-selections) of `items`,
in the source's recursion order. -/
def combs : List (List Char) → List (List (List Char))
  | [] => [[]]
  | x :: t => combsAux x (combs t)

/-- The `constant`-tagged runs, in order. -/
def constantsOf (entry_alt entry_runs : List (List Char)) : List (List Char) :=
  ((entry_alt.zip entry_runs).filter
    (fun p => decide (p.1 = str "constant"))).map (·.2)

/-- The `article`/`o-constant`-tagged runs, in order
(`alt == "article" or alt == "o-constant"`). -/
def articlesOf (entry_alt entry_runs : List (List Char)) : List (List Char) :=
  ((entry_alt.zip entry_runs).filter
    (fun p => decide (p.1 = str "article" ∨ p.1 = str "o-constant"))).map (·.2)

/-- The `verb`-tagged runs, in order. -/
def verbsOf (entry_alt entry_runs : List (List Char)) : List (List Char) :=
  ((entry_alt.zip entry_runs).filter
    (fun p => decide (p.1 = str "verb"))).map (·.2)

/-- The verb stage: `for out in output: for verb in verbs: append out+[verb]`
(the appended part). -/
def flatAppendVerbs (verbs : List (List Char)) :
    List (List (List Char)) → List (List (List Char))
  | [] => []
  | out :: rest => (verbs.map (fun v => out ++ [v])) ++ flatAppendVerbs verbs rest

/-- The `output` list of `get_patterns` after the constant, article/o-constant
and verb stages (each element is the list of selected run strings). -/
def getPatternsOutput (entry_alt entry_runs : List (List Char)) :
    List (List (List Char)) :=
  let output0 := [constantsOf entry_alt entry_runs]
  let possArticles := combs (articlesOf entry_alt entry_runs)
  let output1 :=
    if possArticles.length > 1 then
      output0 ++ output0.foldr
        (fun out acc => ((possArticles.drop 1).map (fun a => out ++ a)) ++ acc) []
    else output0
  let verbs := verbsOf entry_alt entry_runs
  if verbs.length > 0 then output1 ++ flatAppendVerbs verbs output1
  else output1

/-- `final_output`: each combination joined in the original `runs` order
(`' '.join(word for word in runs if word in out)`). -/
def getPatternsFinal (entry_alt entry_runs : List (List Char)) :
    List (List Char) :=
  (getPatternsOutput entry_alt entry_runs).map
    (fun out => joinSpaces (entry_runs.filter (fun w => decide (w ∈ out))))

/-- `list(dict.fromkeys(l))`: deduplicate, keeping first occurrences. -/
def dedupFirstAux (seen : List (List Char)) : List (List Char) → List (List Char)
  | [] => []
  | x :: xs =>
    if x ∈ seen then dedupFirstAux seen xs
    else x :: dedupFirstAux (x :: seen) xs

/-- `list(dict.fromkeys(l))`. -/
def dedupFirst (l : List (List Char)) : List (List Char) := dedupFirstAux [] l

/-- `get_patterns(entry_alt, entry_runs)` from `I_getpatterns.py`. -/
def get_patterns (entry_alt entry_runs : List (List Char)) : List (List Char) :=
  dedupFirst (getPatternsFinal entry_alt entry_runs)

example :
    get_patterns
      [str "verb", str "verb", str "verb", str "article", str "constant",
       str "o-constant", str "variable"]
      [str "get", str "have", str "give", str "a", str "free hand",
       str "with", str "someone or something"] =
    [str "free hand", str "a free hand", str "free hand with",
     str "a free hand with", str "get free hand", str "have free hand",
     str "give free hand", str "get a free hand", str "have a free hand",
     str "give a free hand", str "get free hand with", str "have free hand with",
     str "give free hand with", str "get a free hand with",
     str "have a free hand with", str "give a free hand with"] := by decide

/-! ### `L_algorithm.py` : auxiliary functions -/

/-- Convert the Python `IndexError`-raising lookups to `Except Unit`. -/
def optE {α : Type} : Option α → Except Unit α
  | some a => .ok a
  | none => .error ()

/-- `[item for pair in tuple_list for item in pair]`. -/
def flatSpans : List (Nat × Nat) → List Nat
  | [] => []
  | p :: t => p.1 :: p.2 :: flatSpans t

/-- `get_match_span(tuple_list)`: `(flat_list[0], flat_list[-1])`;
`none` models the `IndexError` on an empty list. -/
def get_match_span (tuple_list : List (Nat × Nat)) : Option (Nat × Nat) :=
  match (flatSpans tuple_list).head?, (flatSpans tuple_list).getLast? with
  | some a, some b => some (a, b)
  | _, _ => none

/-- `is_it_sorted(tuple_list)`: `sorted(flat_list) == flat_list`. -/
def is_it_sorted (tuple_list : List (Nat × Nat)) : Bool :=
  pySortNat (flatSpans tuple_list) == flatSpans tuple_list

/-- `longest(l)` specialised to the `word_forms` shape (a list of units, each
a list of per-word inflection lists; strings are atomic so they contribute
length `0`): the maximum length of any nested list. -/
def longestWF (wfs : List (List (List (List Char)))) : Nat :=
  max wfs.length
    ((wfs.map (fun u => max u.length ((u.map List.length).foldl max 0))).foldl
      max 0)

/-! ### `get_potential_matches` -/

/-- The three-tier check for one constituent word of a multi-word constant:
literal substring of the sentence, then word-form regex match, then lemma
membership (`lemToks` is the lemmatized sentence token list). -/
def threeTierWord (sentence : List Char) (lemToks : List (List Char))
    (w : List Char) (forms : List (List Char)) : Bool :=
  containsSub w sentence || decide (findAll forms sentence ≠ []) ||
    lemToks.any (fun t => decide (t ∈ forms))

/-- The per-constituent loop of the multi-word-constant branch
(`word_match_count`); accesses `wf[c]` and may raise. -/
def wordMatchCountAux (sentence : List Char) (lemToks : List (List Char))
    (wf : List (List (List Char))) :
    List (Nat × List Char) → Nat → Except Unit Nat
  | [], acc => .ok acc
  | (c, w) :: rest, acc =>
    match wf.get? c with
    | none => .error ()
    | some forms =>
      wordMatchCountAux sentence lemToks wf rest
        (acc + if threeTierWord sentence lemToks w forms then 1 else 0)

/-- The body of `get_potential_matches`'s unit loop: `1` if this unit
increments `constant_match_count`, `0` otherwise. -/
def unitSat (sentence : List Char) (lemToks : List (List Char))
    (a r : List Char) (wf : List (List (List Char))) : Except Unit Nat :=
  if a = str "constant" then
    if containsSub r sentence then .ok 1
    else if (pySplit r).length = 1 then
      match wf.head? with
      | none => .error ()
      | some forms =>
        .ok (if findAll forms sentence ≠ [] then 1
             else if lemToks.any (fun t => decide (t ∈ forms)) then 1 else 0)
    else if 1 < (pySplit r).length then
      match wordMatchCountAux sentence lemToks wf ((pySplit r).enum) 0 with
      | .error e => .error e
      | .ok n => .ok (if n = (pySplit r).length then 1 else 0)
    else .ok 0
  else .ok 0

/-- `constant_match_count` for one entry. -/
def constantMatchCount (sentence : List Char) (lemToks : List (List Char)) :
    List (List Char × List Char × List (List (List Char))) → Nat →
    Except Unit Nat
  | [], acc => .ok acc
  | (a, r, wf) :: rest, acc =>
    match unitSat sentence lemToks a r wf with
    | .error e => .error e
    | .ok inc => constantMatchCount sentence lemToks rest (acc + inc)

/-- The zipped `(alt, runs, word_forms)` unit list of an entry
(Python `zip` truncates to the shortest list). -/
def unitsOf (e : DictionaryEntry) :
    List (List Char × List Char × List (List (List Char))) :=
  e.alt.zip (e.runs.zip e.word_forms)

/-- The entry loop of `get_potential_matches`: `dict` is the full dictionary
(for `data["dictionary"].index(entry)`, which returns the index of the first
equal entry; the entry is always a member, so the raising branch of
`list.index` is unreachable). -/
def gpmAux (dict : List DictionaryEntry) (sentence : List Char)
    (lemToks : List (List Char)) :
    List DictionaryEntry → List Nat → Except Unit (List Nat)
  | [], acc => .ok acc
  | e :: rest, acc =>
    match constantMatchCount sentence lemToks (unitsOf e) 0 with
    | .error e2 => .error e2
    | .ok m =>
      gpmAux dict sentence lemToks rest
        (if e.alt.count (str "constant") = m then acc ++ [dict.indexOf e]
         else acc)

/-- `get_potential_matches(sentence)`; `lem` is the external WordNet
verb lemmatizer applied to each whitespace token of the sentence. -/
def get_potential_matches (dict : List DictionaryEntry)
    (sentence : List Char) (lem : List Char → List Char) :
    Except Unit (List Nat) :=
  gpmAux dict sentence ((pySplit sentence).map lem) dict []

/-! ### `look_closer` -/

/-- One dict of `record[i]`:
`{'i': i, 'match': [...], 'span': [...], 'distance': d}` (the float distance
is modelled exactly in `ℚ`; every value arising is a small exact ratio, and
the only comparison is `<= 3.0`, decided identically). -/
structure RecordDict where
  i : Nat
  mtch : List (List Char)
  span : List (Nat × Nat)
  distance : ℚ
deriving DecidableEq

/-- Append a `(match, span)` pair to a record dict. -/
def appendMS (w : List Char) (sp : Nat × Nat) (d : RecordDict) : RecordDict :=
  { d with mtch := d.mtch ++ [w], span := d.span ++ [sp] }

/-- `record[i][index]` update; out of range is a no-op, modelling the
`try: ... except: pass` around the indexed record updates. -/
def updateAt : List RecordDict → Nat → (RecordDict → RecordDict) →
    List RecordDict
  | [], _, _ => []
  | x :: xs, 0, f => f x :: xs
  | x :: xs, n + 1, f => x :: updateAt xs n f

/-- Apply one `findall`/`finditer` result list for word `w` to `record[i]`:
a unique occurrence is appended to every dict; multiple occurrences are
distributed by index, with the source's duplicate-span workaround; an empty
result list leaves the record unchanged (the caller then falls back to the
lemmatized sentence). -/
def applyFinds (w : List Char) (finds : List (List Char × Nat × Nat))
    (recI : List RecordDict) : List RecordDict :=
  match finds with
  | [] => recI
  | [f] => recI.map (fun d => appendMS w f.2 d)
  | _ :: _ :: _ =>
    (finds.enum).foldl
      (fun acc iv =>
        updateAt acc iv.1 (fun d =>
          if w ∈ d.mtch ∧ iv.2.2 ∈ d.span then
            finds.foldl
              (fun d2 f2 =>
                if iv.2.1 = f2.1 ∧ iv.2.2 ≠ f2.2 then appendMS w f2.2 d2
                else d2)
              d
          else appendMS w iv.2.2 d))
      recI

/-- Process one word (a single-word run, or one constituent of a multi-word
run): search the raw sentence, falling back to the lemmatized sentence
string when there is no raw match. -/
def processWord (sentence lemmaStr : List Char) (w : List Char)
    (forms : List (List Char)) (recI : List RecordDict) : List RecordDict :=
  let finds := findAll forms sentence
  if finds ≠ [] then applyFinds w finds recI
  else applyFinds w (findAll forms lemmaStr) recI

/-- The tags processed by `look_closer`'s unit loop. -/
def fourTags : List (List Char) :=
  [str "article", str "verb", str "o-constant", str "constant"]

/-- The per-constituent loop of a multi-word unit (`wf[c]` may raise). -/
def processConstituents (sentence lemmaStr : List Char)
    (wf : List (List (List Char))) :
    List (Nat × List Char) → List RecordDict → Except Unit (List RecordDict)
  | [], recI => .ok recI
  | (c, w) :: rest, recI =>
    match wf.get? c with
    | none => .error ()
    | some forms =>
      processConstituents sentence lemmaStr wf rest
        (processWord sentence lemmaStr w forms recI)

/-- The unit loop body of `look_closer`. -/
def processUnit (sentence lemmaStr : List Char) (recI : List RecordDict)
    (u : List Char × List Char × List (List (List Char))) :
    Except Unit (List RecordDict) :=
  if u.1 ∈ fourTags ∧ (pySplit u.2.1).length = 1 then
    match u.2.2.head? with
    | none => .error ()
    | some forms => .ok (processWord sentence lemmaStr u.2.1 forms recI)
  else if u.1 ∈ fourTags ∧ 1 < (pySplit u.2.1).length then
    processConstituents sentence lemmaStr u.2.2 ((pySplit u.2.1).enum) recI
  else .ok recI

/-- Unit-list fold for one entry's record. -/
def processUnits (sentence lemmaStr : List Char) :
    List (List Char × List Char × List (List (List Char))) →
    List RecordDict → Except Unit (List RecordDict)
  | [], recI => .ok recI
  | u :: rest, recI =>
    match processUnit sentence lemmaStr recI u with
    | .error e => .error e
    | .ok recI2 => processUnits sentence lemmaStr rest recI2

/-- `record[i]` for entry `e`. -/
def buildRecordEntry (sentence lemmaStr : List Char) (i : Nat)
    (e : DictionaryEntry) : Except Unit (List RecordDict) :=
  processUnits sentence lemmaStr (unitsOf e)
    (List.replicate (longestWF e.word_forms + 2)
      { i := i, mtch := [], span := [], distance := 0 })

/-- `record` for the whole candidate list. -/
def buildRecords (sentence lemmaStr : List Char) :
    List (Nat × DictionaryEntry) → Except Unit (List (List RecordDict))
  | [] => .ok []
  | (i, e) :: rest =>
    match buildRecordEntry sentence lemmaStr i e with
    | .error e2 => .error e2
    | .ok r =>
      match buildRecords sentence lemmaStr rest with
      | .error e2 => .error e2
      | .ok t => .ok (r :: t)

/-- Word distances between consecutive matched spans
(`sentence[s[-1] : span[i+1][0]]`, stripped and split).  The source iterates
to `len(match) - 1`; every constructed record has `len(match) = len(span)`
(they are only ever extended in pairs), so iterating over consecutive span
pairs is the same loop. -/
def gapsOf (sentence : List Char) (spans : List (Nat × Nat)) : List Nat :=
  (spans.zip spans.tail).map (fun pq => countWords (pySlice sentence pq.1.2 pq.2.1))

/-- Python `max` over the (nonempty) gap list. -/
def maxNat (l : List Nat) : Nat := l.foldl max 0

/-- The distance pass over one record dict.  The float average
`sum(distance)/len(distance)` is modelled exactly (`mkRat`): it is only
computed when `max(distance) ≤ 3`, in which case the exact average is `≤ 3`
and so is its float rounding (`3.0` is representable and rounding is
monotone), so the subsequent `<= 3.0` test decides identically. -/
def setDistance (sentence : List Char) (d : RecordDict) : RecordDict :=
  if d.mtch.length = 0 ∨ d.mtch.length = 1 then { d with distance := 0 }
  else
    let gaps := gapsOf sentence d.span
    { d with distance :=
        if maxNat gaps = 0 then 0
        else if maxNat gaps > 3 then mkRat (maxNat gaps) 1
        else mkRat gaps.sum gaps.length }

/-- The qualification test of `look_closer`'s match loop. -/
def qual (e : DictionaryEntry) (d : RecordDict) : Bool :=
  decide (d.mtch ≠ []) && decide (d.span ≠ []) &&
    decide (joinSpaces d.mtch ∈ e.patterns) && is_it_sorted d.span &&
    decide (d.distance ≤ 3)

/-- A reported match: `(dictionary entry, number of matching words, span)`. -/
abbrev MatchTriple := DictionaryEntry × Nat × (Nat × Nat)

/-- The match-collection loop: first qualifying dict per entry
(the `break` keeps at most one match per entry). -/
def buildMatches : List (DictionaryEntry × List RecordDict) →
    Except Unit (List MatchTriple)
  | [] => .ok []
  | (e, rs) :: rest =>
    match rs.find? (qual e) with
    | none => buildMatches rest
    | some r =>
      match get_match_span r.span with
      | none => .error ()
      | some sp =>
        match buildMatches rest with
        | .error e2 => .error e2
        | .ok tl => .ok ((e, r.mtch.length, sp) :: tl)

/-- Stable descending insertion by match count
(`sorted(matches, key=lambda x: x[1], reverse=True)` is stable). -/
def insertDescM (x : MatchTriple) : List MatchTriple → List MatchTriple
  | [] => [x]
  | y :: ys => if y.2.1 ≤ x.2.1 then x :: y :: ys else y :: insertDescM x ys

/-- Stable descending sort by match count. -/
def sortDescM : List MatchTriple → List MatchTriple
  | [] => []
  | x :: xs => insertDescM x (sortDescM xs)

/-- `dictionary = [data["dictionary"][item] for item in potential_matches]`
(an out-of-range index would raise). -/
def selectEntries (dict : List DictionaryEntry) :
    List Nat → Except Unit (List DictionaryEntry)
  | [] => .ok []
  | j :: t =>
    match dict.get? j with
    | none => .error ()
    | some e =>
      match selectEntries dict t with
      | .error e2 => .error e2
      | .ok rest => .ok (e :: rest)

/-- `look_closer(potential_matches, sentence)`. -/
def look_closer (dict : List DictionaryEntry) (potential_matches : List Nat)
    (sentence : List Char) (lem : List Char → List Char) :
    Except Unit (List MatchTriple) :=
  match selectEntries dict potential_matches with
  | .error e => .error e
  | .ok dictionary =>
    match buildRecords sentence (joinSpaces ((pySplit sentence).map lem))
        dictionary.enum with
    | .error e => .error e
    | .ok recs =>
      match buildMatches
          (dictionary.zip (recs.map (fun ri => ri.map (setDistance sentence))))
          with
      | .error e => .error e
      | .ok ms => .ok (sortDescM ms)

/-! ### `find_idioms` -/

/-- The keyword flags of `find_idioms`. -/
structure OutputFlags where
  html : Bool
  span : Bool
  entry_range : Bool
  entry_id : Bool
deriving DecidableEq

/-- One output dict of `find_idioms` (absent keys are `none`). -/
structure OutputItem where
  phrase? : Option (List Char)
  definition? : Option (List Char)
  phraseHtml? : Option (List Char)
  definitionHtml? : Option (List Char)
  span? : Option (Nat × Nat)
  entryRange? : Option (List Nat)
  entryId? : Option Nat
deriving DecidableEq

/-- Build one output dict from a `(entry, span)` pair. -/
def projectMatch (fl : OutputFlags) (m : DictionaryEntry × (Nat × Nat)) :
    OutputItem :=
  { phrase? := if fl.html then none else some m.1.phrase
    definition? := if fl.html then none else some m.1.definition
    phraseHtml? := if fl.html then some m.1.phrase_html else none
    definitionHtml? := if fl.html then some m.1.definition_html else none
    span? := if fl.span then some m.2 else none
    entryRange? := if fl.entry_range then some m.1.range else none
    entryId? := if fl.entry_id then some m.1.id else none }

/-- `itertools.groupby` with no key, keeping the group keys: collapse runs of
consecutive equal elements (auxiliary, `prev` is the last kept element). -/
def collapseRunsAux (prev : DictionaryEntry × (Nat × Nat)) :
    List (DictionaryEntry × (Nat × Nat)) → List (DictionaryEntry × (Nat × Nat))
  | [] => []
  | x :: xs =>
    if x = prev then collapseRunsAux prev xs else x :: collapseRunsAux x xs

/-- `list(k for k, _ in itertools.groupby(l))`. -/
def collapseRuns : List (DictionaryEntry × (Nat × Nat)) →
    List (DictionaryEntry × (Nat × Nat))
  | [] => []
  | x :: xs => x :: collapseRunsAux x xs

/-- `find_idioms(sentence, limit, html, span, entry_range, entry_id)`. -/
def find_idioms (dict : List DictionaryEntry) (sentence : List Char)
    (lem : List Char → List Char) (limit : Nat) (fl : OutputFlags) :
    Except Unit (List OutputItem) :=
  match get_potential_matches dict sentence lem with
  | .error e => .error e
  | .ok pm =>
    match look_closer dict pm sentence lem with
    | .error e => .error e
    | .ok lc =>
      .ok (((collapseRuns ((lc.take limit).map (fun it => (it.1, it.2.2))))).map
        (projectMatch fl))

/-! ### Concrete entries used by witnesses and counterexamples -/

/-- A two-constant entry (`kick ... bucket`). -/
def entKick : DictionaryEntry :=
  { id := 0, range := [10, 11], phrase := str "kick the bucket"
    phrase_html := str "<b>kick the bucket</b>", definition := str "to die"
    definition_html := str "to die"
    alt := [str "constant", str "constant"]
    runs := [str "kick", str "bucket"]
    patterns := [str "kick bucket", str "kick the bucket"]
    word_forms := [[[str "kick"]], [[str "bucket"]]]
    multiple := false, duplicate := false }

/-- A four-constant entry matched by the same sentence as `entKick`. -/
def entFour : DictionaryEntry :=
  { id := 1, range := [12, 13], phrase := str "kick the bucket now"
    phrase_html := str "<b>kick the bucket now</b>"
    definition := str "to die at once", definition_html := str "to die at once"
    alt := [str "constant", str "constant", str "constant", str "constant"]
    runs := [str "kick", str "the", str "bucket", str "now"]
    patterns := [str "kick the bucket now"]
    word_forms := [[[str "kick"]], [[str "the"]], [[str "bucket"]], [[str "now"]]]
    multiple := false, duplicate := false }

/-- An entry whose only constant's `word_forms` list is empty: `wf[0]`
raises `IndexError` in both search functions. -/
def entBad : DictionaryEntry :=
  { id := 2, range := [14, 15], phrase := str "zzz"
    phrase_html := str "zzz", definition := str "zzz"
    definition_html := str "zzz"
    alt := [str "constant"], runs := [str "zzz"], patterns := [str "zzz"]
    word_forms := [[]], multiple := false, duplicate := false }

/-- An entry with no `constant` unit at all. -/
def entNoConst : DictionaryEntry :=
  { id := 3, range := [16, 17], phrase := str "go"
    phrase_html := str "go", definition := str "to go"
    definition_html := str "to go"
    alt := [str "verb"], runs := [str "go"], patterns := [str "go"]
    word_forms := [[[str "go"]]], multiple := false, duplicate := false }

/-- An entry whose only constant is the multi-word phrase `want for nothing`,
parameterized by its three inflection lists. -/
def wantEntry (fw ff fn : List (List Char)) : DictionaryEntry :=
  { id := 4, range := [18, 19], phrase := str "want for nothing"
    phrase_html := str "want for nothing", definition := str "to lack nothing"
    definition_html := str "to lack nothing"
    alt := [str "constant"], runs := [str "want for nothing"]
    patterns := [str "want for nothing"]
    word_forms := [[fw, ff, fn]]
    multiple := false, duplicate := false }

/-- The multi-word-constant entry of the `want for nothing` scenario. -/
def entWant : DictionaryEntry :=
  wantEntry [str "want", str "wants", str "wanted"] [str "for"] [str "nothing"]

example :
    get_potential_matches [entKick, entFour] (str "kick the bucket now") id =
      .ok [0, 1] := by decide

example :
    look_closer [entKick, entFour] [0, 1] (str "kick the bucket now") id =
      .ok [(entFour, 4, (0, 19)), (entKick, 2, (0, 15))] := by decide

example :
    find_idioms [entKick] (str "hello world") id 10 ⟨false, false, false, false⟩
      = .ok [] := by decide

example :
    get_potential_matches [entBad] (str "hello") id = .error () := by decide

example :
    look_closer [entBad] [0] (str "hello") id = .error () := by decide

example :
    get_potential_matches [entWant] (str "I want it") id = .ok [] := by decide

/-! ### Helper lemmas: folds, sorting, spans -/

theorem foldl_preserve {α β : Type} (P : α → Prop) (g : α → β → α)
    (h : ∀ a b, P a → P (g a b)) :
    ∀ (l : List β) (a : α), P a → P (l.foldl g a) := by
  intro l
  induction l with
  | nil => intro a ha; simpa using ha
  | cons x xs ih => intro a ha; simpa using ih (g a x) (h a x ha)

theorem updateAt_forall (P : RecordDict → Prop) (f : RecordDict → RecordDict)
    (hf : ∀ d, P d → P (f d)) :
    ∀ (l : List RecordDict) (n : Nat), (∀ d ∈ l, P d) →
      ∀ d ∈ updateAt l n f, P d := by
  intro l
  induction l with
  | nil => intro n _ d hd; simp [updateAt] at hd
  | cons x xs ih =>
    intro n hl d hd
    cases n with
    | zero =>
      rw [updateAt] at hd
      rcases List.mem_cons.mp hd with hd | hd
      · exact hd ▸ hf x (hl x (List.mem_cons_self _ _))
      · exact hl d (List.mem_cons_of_mem _ hd)
    | succ m =>
      rw [updateAt] at hd
      rcases List.mem_cons.mp hd with hd | hd
      · exact hl d (hd ▸ List.mem_cons_self _ _)
      · exact ih m (fun d2 hd2 => hl d2 (List.mem_cons_of_mem _ hd2)) d hd

theorem mem_insertAsc (n : Nat) : ∀ (l : List Nat) (a : Nat),
    a ∈ insertAsc n l → a = n ∨ a ∈ l := by
  intro l
  induction l with
  | nil => intro a ha; simpa [insertAsc] using ha
  | cons m t ih =>
    intro a ha
    by_cases h : n ≤ m
    · rw [insertAsc, if_pos h] at ha
      rcases List.mem_cons.mp ha with ha | ha
      · exact Or.inl ha
      · exact Or.inr ha
    · rw [insertAsc, if_neg h] at ha
      rcases List.mem_cons.mp ha with ha | ha
      · exact Or.inr (ha ▸ List.mem_cons_self _ _)
      · rcases ih a ha with h2 | h2
        · exact Or.inl h2
        · exact Or.inr (List.mem_cons_of_mem _ h2)

theorem insertAsc_pairwise (n : Nat) : ∀ (l : List Nat),
    l.Pairwise (· ≤ ·) → (insertAsc n l).Pairwise (· ≤ ·) := by
  intro l
  induction l with
  | nil => intro _; simp [insertAsc]
  | cons m t ih =>
    intro hp
    rcases List.pairwise_cons.mp hp with ⟨hm, ht⟩
    by_cases h : n ≤ m
    · rw [insertAsc, if_pos h]
      refine List.pairwise_cons.mpr ⟨?_, hp⟩
      intro a ha
      rcases List.mem_cons.mp ha with ha | ha
      · exact ha ▸ h
      · exact le_trans h (hm a ha)
    · rw [insertAsc, if_neg h]
      refine List.pairwise_cons.mpr ⟨?_, ih ht⟩
      intro a ha
      rcases mem_insertAsc n t a ha with ha | ha
      · exact ha ▸ le_of_not_le h
      · exact hm a ha

theorem pySortNat_pairwise : ∀ (l : List Nat),
    (pySortNat l).Pairwise (· ≤ ·) := by
  intro l
  induction l with
  | nil => simp [pySortNat]
  | cons x t ih => exact insertAsc_pairwise x (pySortNat t) ih

theorem pairwise_of_pySortNat_fix {l : List Nat} (h : pySortNat l = l) :
    l.Pairwise (· ≤ ·) := h ▸ pySortNat_pairwise l

theorem mem_insertDescM (x : MatchTriple) : ∀ (l : List MatchTriple)
    (a : MatchTriple), a ∈ insertDescM x l ↔ a = x ∨ a ∈ l := by
  intro l
  induction l with
  | nil => intro a; simp [insertDescM]
  | cons y ys ih =>
    intro a
    by_cases h : y.2.1 ≤ x.2.1
    · rw [insertDescM, if_pos h]
      simp [or_assoc]
    · rw [insertDescM, if_neg h]
      rw [List.mem_cons, List.mem_cons, ih a]
      tauto

theorem mem_sortDescM : ∀ (l : List MatchTriple) (a : MatchTriple),
    a ∈ sortDescM l ↔ a ∈ l := by
  intro l
  induction l with
  | nil => intro a; simp [sortDescM]
  | cons x xs ih =>
    intro a
    rw [sortDescM, mem_insertDescM x (sortDescM xs) a, ih a, List.mem_cons]

theorem insertDescM_pairwise (x : MatchTriple) : ∀ (l : List MatchTriple),
    l.Pairwise (fun a b => b.2.1 ≤ a.2.1) →
    (insertDescM x l).Pairwise (fun a b => b.2.1 ≤ a.2.1) := by
  intro l
  induction l with
  | nil => intro _; simp [insertDescM]
  | cons y ys ih =>
    intro hp
    rcases List.pairwise_cons.mp hp with ⟨hy, hys⟩
    by_cases h : y.2.1 ≤ x.2.1
    · rw [insertDescM, if_pos h]
      refine List.pairwise_cons.mpr ⟨?_, hp⟩
      intro a ha
      rcases List.mem_cons.mp ha with ha | ha
      · exact ha ▸ h
      · exact le_trans (hy a ha) h
    · rw [insertDescM, if_neg h]
      refine List.pairwise_cons.mpr ⟨?_, ih hys⟩
      intro a ha
      rcases (mem_insertDescM x ys a).mp ha with ha | ha
      · exact ha ▸ le_of_lt (lt_of_not_le h)
      · exact hy a ha

theorem sortDescM_pairwise : ∀ (l : List MatchTriple),
    (sortDescM l).Pairwise (fun a b => b.2.1 ≤ a.2.1) := by
  intro l
  induction l with
  | nil => simp [sortDescM]
  | cons x xs ih => exact insertDescM_pairwise x (sortDescM xs) ih

theorem filter_insertDescM_eq {c : Nat} {x : MatchTriple} (hx : x.2.1 = c) :
    ∀ (l : List MatchTriple),
      (insertDescM x l).filter (fun t => decide (t.2.1 = c)) =
        x :: l.filter (fun t => decide (t.2.1 = c)) := by
  have hxc : decide (x.2.1 = c) = true := decide_eq_true hx
  intro l
  induction l with
  | nil => rw [insertDescM, List.filter_cons, hxc]; simp
  | cons y ys ih =>
    by_cases h : y.2.1 ≤ x.2.1
    · rw [insertDescM, if_pos h, List.filter_cons, hxc]
      simp
    · have hy : decide (y.2.1 = c) = false := by
        refine decide_eq_false ?_
        intro he
        exact h (le_of_eq (he.trans hx.symm))
      rw [insertDescM, if_neg h, List.filter_cons, hy, ih, List.filter_cons, hy]
      simp

theorem filter_insertDescM_ne {c : Nat} {x : MatchTriple} (hx : ¬ x.2.1 = c) :
    ∀ (l : List MatchTriple),
      (insertDescM x l).filter (fun t => decide (t.2.1 = c)) =
        l.filter (fun t => decide (t.2.1 = c)) := by
  have hxc : decide (x.2.1 = c) = false := decide_eq_false hx
  intro l
  induction l with
  | nil => rw [insertDescM, List.filter_cons, hxc]; simp
  | cons y ys ih =>
    by_cases h : y.2.1 ≤ x.2.1
    · rw [insertDescM, if_pos h, List.filter_cons, hxc]
      simp
    · rw [insertDescM, if_neg h, List.filter_cons, ih, List.filter_cons]

theorem sortDescM_stable (c : Nat) : ∀ (l : List MatchTriple),
    (sortDescM l).filter (fun t => decide (t.2.1 = c)) =
      l.filter (fun t => decide (t.2.1 = c)) := by
  intro l
  induction l with
  | nil => simp [sortDescM]
  | cons x xs ih =>
    by_cases h : x.2.1 = c
    · rw [sortDescM, filter_insertDescM_eq h, ih, List.filter_cons,
        if_pos (by simpa using h)]
    · rw [sortDescM, filter_insertDescM_ne h, ih, List.filter_cons,
        if_neg (by simpa using h)]

theorem flatSpans_getLast? : ∀ (t : List (Nat × Nat)) (p : Nat × Nat),
    (flatSpans (p :: t)).getLast? = some (((p :: t).getLast (by simp)).2) := by
  intro t
  induction t with
  | nil => intro p; simp [flatSpans]
  | cons q t2 ih =>
    intro p
    have h1 : flatSpans (p :: q :: t2) = p.1 :: p.2 :: flatSpans (q :: t2) := rfl
    have h2 : flatSpans (q :: t2) = q.1 :: q.2 :: flatSpans t2 := rfl
    rw [h1, List.getLast?_cons_cons, h2, List.getLast?_cons_cons, ← h2, ih q]
    simp [List.getLast_cons]

theorem get_match_span_cons (p : Nat × Nat) (t : List (Nat × Nat)) :
    get_match_span (p :: t) = some (p.1, ((p :: t).getLast (by simp)).2) := by
  unfold get_match_span
  rw [flatSpans_getLast? t p]
  rfl

theorem pairwise_head_le_getLast {l : List Nat} {a b : Nat}
    (hp : l.Pairwise (· ≤ ·)) (ha : l.head? = some a)
    (hb : l.getLast? = some b) : a ≤ b := by
  cases l with
  | nil => simp at ha
  | cons x t =>
    have hxa : x = a := by simpa using ha
    have hbmem : b ∈ x :: t := by
      rcases List.mem_getLast?_eq_getLast
        (show b ∈ (x :: t).getLast? from hb) with ⟨hne, hbe⟩
      exact hbe ▸ List.getLast_mem hne
    rcases List.mem_cons.mp hbmem with h | h
    · exact le_of_eq (hxa ▸ h.symm ▸ rfl)
    · exact hxa ▸ (List.pairwise_cons.mp hp).1 b h

theorem bindE_ok {α β : Type} {x : Except Unit α} {f : α → Except Unit β}
    {b : β} : (x >>= f) = .ok b ↔ ∃ a, x = .ok a ∧ f a = .ok b := by
  cases x with
  | error e => simp [Bind.bind, Except.bind]
  | ok a => simp [Bind.bind, Except.bind]

theorem optE_ok {α : Type} {o : Option α} {a : α} :
    optE o = .ok a ↔ o = some a := by
  cases o <;> simp [optE]

/-! ### The record invariant: `match` and `span` grow in lock step -/

/-- Every record dict always satisfies `len(match) = len(span)`. -/
def lenInv (d : RecordDict) : Prop := d.mtch.length = d.span.length

theorem appendMS_lenInv {d : RecordDict} (w : List Char) (sp : Nat × Nat)
    (h : lenInv d) : lenInv (appendMS w sp d) := by
  simp [appendMS, lenInv] at h ⊢
  exact h

theorem applyFinds_lenInv (w : List Char)
    (finds : List (List Char × Nat × Nat)) (recI : List RecordDict)
    (h : ∀ d ∈ recI, lenInv d) : ∀ d ∈ applyFinds w finds recI, lenInv d := by
  match finds with
  | [] => exact h
  | [f] =>
    intro d hd
    rcases List.mem_map.mp hd with ⟨d0, hd0, he⟩
    exact he ▸ appendMS_lenInv w f.2 (h d0 hd0)
  | f1 :: f2 :: fs =>
    refine foldl_preserve (fun acc => ∀ d ∈ acc, lenInv d) _ ?_
      ((f1 :: f2 :: fs).enum) recI h
    intro acc iv hacc
    refine updateAt_forall lenInv _ ?_ acc iv.1 hacc
    intro d hd
    by_cases hc : w ∈ d.mtch ∧ iv.2.2 ∈ d.span
    · rw [if_pos hc]
      refine foldl_preserve lenInv _ ?_ (f1 :: f2 :: fs) d hd
      intro d2 g hd2
      by_cases hg : iv.2.1 = g.1 ∧ iv.2.2 ≠ g.2
      · rw [if_pos hg]; exact appendMS_lenInv w g.2 hd2
      · rw [if_neg hg]; exact hd2
    · rw [if_neg hc]
      exact appendMS_lenInv w iv.2.2 hd

theorem processWord_lenInv (sentence lemmaStr w : List Char)
    (forms : List (List Char)) (recI : List RecordDict)
    (h : ∀ d ∈ recI, lenInv d) :
    ∀ d ∈ processWord sentence lemmaStr w forms recI, lenInv d := by
  unfold processWord
  by_cases hf : findAll forms sentence ≠ []
  · rw [if_pos hf]; exact applyFinds_lenInv w _ recI h
  · rw [if_neg hf]; exact applyFinds_lenInv w _ recI h

theorem processConstituents_lenInv (sentence lemmaStr : List Char)
    (wf : List (List (List Char))) :
    ∀ (l : List (Nat × List Char)) (recI out : List RecordDict),
      (∀ d ∈ recI, lenInv d) →
      processConstituents sentence lemmaStr wf l recI = .ok out →
      ∀ d ∈ out, lenInv d := by
  intro l
  induction l with
  | nil =>
    intro recI out h hok
    cases hok
    exact h
  | cons cw rest ih =>
    intro recI out h hok
    rw [processConstituents] at hok
    cases hg : wf.get? cw.1 with
    | none => rw [hg] at hok; cases hok
    | some forms =>
      rw [hg] at hok
      exact ih _ out (processWord_lenInv sentence lemmaStr cw.2 forms recI h) hok

theorem processUnit_lenInv (sentence lemmaStr : List Char)
    (recI : List RecordDict)
    (u : List Char × List Char × List (List (List Char)))
    (out : List RecordDict) (h : ∀ d ∈ recI, lenInv d)
    (hok : processUnit sentence lemmaStr recI u = .ok out) :
    ∀ d ∈ out, lenInv d := by
  unfold processUnit at hok
  by_cases h1 : u.1 ∈ fourTags ∧ (pySplit u.2.1).length = 1
  · rw [if_pos h1] at hok
    cases hh : u.2.2.head? with
    | none => rw [hh] at hok; cases hok
    | some forms =>
      rw [hh] at hok
      cases hok
      exact processWord_lenInv sentence lemmaStr u.2.1 forms recI h
  · rw [if_neg h1] at hok
    by_cases h2 : u.1 ∈ fourTags ∧ 1 < (pySplit u.2.1).length
    · rw [if_pos h2] at hok
      exact processConstituents_lenInv sentence lemmaStr u.2.2 _ recI out h hok
    · rw [if_neg h2] at hok
      cases hok
      exact h

theorem processUnits_lenInv (sentence lemmaStr : List Char) :
    ∀ (l : List (List Char × List Char × List (List (List Char))))
      (recI out : List RecordDict), (∀ d ∈ recI, lenInv d) →
      processUnits sentence lemmaStr l recI = .ok out → ∀ d ∈ out, lenInv d := by
  intro l
  induction l with
  | nil =>
    intro recI out h hok
    cases hok
    exact h
  | cons u rest ih =>
    intro recI out h hok
    rw [processUnits] at hok
    cases hu : processUnit sentence lemmaStr recI u with
    | error e => rw [hu] at hok; cases hok
    | ok recI2 =>
      rw [hu] at hok
      exact ih recI2 out (processUnit_lenInv sentence lemmaStr recI u recI2 h hu)
        hok

theorem buildRecordEntry_lenInv (sentence lemmaStr : List Char) (i : Nat)
    (e : DictionaryEntry) (out : List RecordDict)
    (hok : buildRecordEntry sentence lemmaStr i e = .ok out) :
    ∀ d ∈ out, lenInv d := by
  refine processUnits_lenInv sentence lemmaStr (unitsOf e) _ out ?_ hok
  intro d hd
  have := List.eq_of_mem_replicate hd
  rw [this]
  rfl

theorem buildRecords_lenInv (sentence lemmaStr : List Char) :
    ∀ (l : List (Nat × DictionaryEntry)) (out : List (List RecordDict)),
      buildRecords sentence lemmaStr l = .ok out →
      ∀ ri ∈ out, ∀ d ∈ ri, lenInv d := by
  intro l
  induction l with
  | nil =>
    intro out hok
    cases hok
    intro ri hri
    simp at hri
  | cons ie rest ih =>
    intro out hok
    rw [buildRecords] at hok
    cases h1 : buildRecordEntry sentence lemmaStr ie.1 ie.2 with
    | error e2 => rw [h1] at hok; cases hok
    | ok r =>
      rw [h1] at hok
      cases h2 : buildRecords sentence lemmaStr rest with
      | error e2 => rw [h2] at hok; cases hok
      | ok t =>
        rw [h2] at hok
        cases hok
        intro ri hri
        rcases List.mem_cons.mp hri with hri | hri
        · exact hri ▸ buildRecordEntry_lenInv sentence lemmaStr ie.1 ie.2 r h1
        · exact ih t h2 ri hri

/-! ### `setDistance` and `qual` facts -/

theorem setDistance_mtch (sentence : List Char) (d : RecordDict) :
    (setDistance sentence d).mtch = d.mtch := by
  unfold setDistance
  by_cases h : d.mtch.length = 0 ∨ d.mtch.length = 1
  · rw [if_pos h]
  · rw [if_neg h]

theorem setDistance_span (sentence : List Char) (d : RecordDict) :
    (setDistance sentence d).span = d.span := by
  unfold setDistance
  by_cases h : d.mtch.length = 0 ∨ d.mtch.length = 1
  · rw [if_pos h]
  · rw [if_neg h]

theorem qual_unpack {e : DictionaryEntry} {d : RecordDict}
    (h : qual e d = true) :
    d.mtch ≠ [] ∧ d.span ≠ [] ∧ joinSpaces d.mtch ∈ e.patterns ∧
      is_it_sorted d.span = true ∧ d.distance ≤ 3 := by
  simp only [qual, Bool.and_eq_true, decide_eq_true_eq] at h
  exact ⟨h.1.1.1.1, h.1.1.1.2, h.1.1.2, h.1.2, h.2⟩

/-! ### Provenance of `look_closer` results -/

theorem buildMatches_mem :
    ∀ (pairs : List (DictionaryEntry × List RecordDict))
      (ms : List MatchTriple), buildMatches pairs = .ok ms →
      ∀ m ∈ ms, ∃ p ∈ pairs, ∃ r : RecordDict,
        p.2.find? (qual p.1) = some r ∧
        get_match_span r.span = some m.2.2 ∧ m = (p.1, r.mtch.length, m.2.2) := by
  intro pairs
  induction pairs with
  | nil =>
    intro ms hok m hm
    cases hok
    simp at hm
  | cons p rest ih =>
    intro ms hok m hm
    rw [buildMatches] at hok
    cases hf : p.2.find? (qual p.1) with
    | none =>
      simp only [hf] at hok
      rcases ih ms hok m hm with ⟨p2, hp2, r, hfind, hspan, hme⟩
      exact ⟨p2, List.mem_cons_of_mem _ hp2, r, hfind, hspan, hme⟩
    | some r =>
      simp only [hf] at hok
      cases hg : get_match_span r.span with
      | none => simp only [hg] at hok; cases hok
      | some sp =>
        simp only [hg] at hok
        cases hb : buildMatches rest with
        | error e2 => simp only [hb] at hok; cases hok
        | ok tl =>
          simp only [hb] at hok
          cases hok
          rcases List.mem_cons.mp hm with hm | hm
          · refine ⟨p, List.mem_cons_self _ _, r, hf, ?_, ?_⟩
            · rw [hm]
              exact hg
            · rw [hm]
          · rcases ih tl hb m hm with ⟨p2, hp2, r2, hfind, hspan, hme⟩
            exact ⟨p2, List.mem_cons_of_mem _ hp2, r2, hfind, hspan, hme⟩

theorem look_closer_mem {dict : List DictionaryEntry}
    {potential_matches : List Nat} {sentence : List Char}
    {lem : List Char → List Char} {res : List MatchTriple}
    (hok : look_closer dict potential_matches sentence lem = .ok res) :
    ∀ m ∈ res, ∃ r0 : RecordDict, lenInv r0 ∧
      qual m.1 (setDistance sentence r0) = true ∧
      get_match_span r0.span = some m.2.2 ∧
      m.2.1 = r0.mtch.length := by
  intro m hm
  unfold look_closer at hok
  cases h1 : selectEntries dict potential_matches with
  | error e => simp only [h1] at hok; cases hok
  | ok dictionary =>
    simp only [h1] at hok
    cases h2 : buildRecords sentence (joinSpaces ((pySplit sentence).map lem))
        dictionary.enum with
    | error e => simp only [h2] at hok; cases hok
    | ok recs =>
      simp only [h2] at hok
      cases h3 : buildMatches
          (dictionary.zip (recs.map (fun ri => ri.map (setDistance sentence))))
          with
      | error e => simp only [h3] at hok; cases hok
      | ok ms =>
        simp only [h3] at hok
        cases hok
        have hmms : m ∈ ms := (mem_sortDescM ms m).mp hm
        rcases buildMatches_mem _ ms h3 m hmms with ⟨p, hp, r, hfind, hspan, hme⟩
        have hrmem : r ∈ p.2 := List.mem_of_find?_eq_some hfind
        have hqual : qual p.1 r = true := List.find?_some hfind
        have hp2 : p.2 ∈ recs.map (fun ri => ri.map (setDistance sentence)) :=
          (List.of_mem_zip hp).2
        rcases List.mem_map.mp hp2 with ⟨ri0, hri0, hri0e⟩
        rcases List.mem_map.mp (hri0e ▸ hrmem) with ⟨r0, hr0, hr0e⟩
        have hinv0 : lenInv r0 := buildRecords_lenInv sentence _ _ recs h2 ri0
          hri0 r0 hr0
        have hfst : m.1 = p.1 := by rw [hme]
        refine ⟨r0, hinv0, ?_, ?_, ?_⟩
        · rw [hfst, hr0e]
          exact hqual
        · rw [← setDistance_span sentence r0, hr0e]
          exact hspan
        · have : m.2.1 = r.mtch.length := by rw [hme]
          rw [this, ← hr0e, setDistance_mtch]

/-! ### Distance facts -/

theorem foldl_max_init : ∀ (l : List Nat) (a : Nat), a ≤ l.foldl max a := by
  intro l
  induction l with
  | nil => intro a; simp
  | cons x xs ih =>
    intro a
    calc a ≤ max a x := le_max_left a x
    _ ≤ xs.foldl max (max a x) := ih (max a x)

theorem le_maxNat_of_mem : ∀ (l : List Nat) (a : Nat) (g : Nat), g ∈ l →
    g ≤ l.foldl max a := by
  intro l
  induction l with
  | nil => intro a g hg; simp at hg
  | cons x xs ih =>
    intro a g hg
    rcases List.mem_cons.mp hg with hg | hg
    · subst hg
      calc g ≤ max a g := le_max_right a g
      _ ≤ xs.foldl max (max a g) := foldl_max_init xs (max a g)
    · exact ih (max a x) g hg

theorem gapsOf_ne_nil_span {sentence : List Char} {spans : List (Nat × Nat)}
    {g : Nat} (hg : g ∈ gapsOf sentence spans) : 2 ≤ spans.length := by
  match spans with
  | [] => simp [gapsOf] at hg
  | [p] => simp [gapsOf] at hg
  | p :: q :: t => simp

theorem setDistance_le3_gaps {sentence : List Char} {d : RecordDict}
    (hinv : lenInv d) (h : (setDistance sentence d).distance ≤ 3) :
    ∀ g ∈ gapsOf sentence d.span, g ≤ 3 := by
  intro g hg
  have hsp2 : 2 ≤ d.span.length := gapsOf_ne_nil_span hg
  have h01 : ¬ (d.mtch.length = 0 ∨ d.mtch.length = 1) := by
    rw [lenInv] at hinv
    omega
  rw [setDistance, if_neg h01] at h
  simp only at h
  by_cases hm0 : maxNat (gapsOf sentence d.span) = 0
  · have := le_maxNat_of_mem (gapsOf sentence d.span) 0 g hg
    rw [maxNat] at hm0
    omega
  · rw [if_neg hm0] at h
    by_cases hm3 : maxNat (gapsOf sentence d.span) > 3
    · rw [if_pos hm3] at h
      rw [Rat.mkRat_one] at h
      have hc : (maxNat (gapsOf sentence d.span) : ℚ) ≤ ((3 : Nat) : ℚ) := by
        exact_mod_cast h
      have : maxNat (gapsOf sentence d.span) ≤ 3 := by exact_mod_cast hc
      omega
    · have := le_maxNat_of_mem (gapsOf sentence d.span) 0 g hg
      rw [maxNat] at hm3
      omega

theorem gaps_ge4_not_qual {sentence : List Char} {e : DictionaryEntry}
    {d : RecordDict} (hinv : lenInv d) {g : Nat}
    (hg : g ∈ gapsOf sentence d.span) (h4 : 4 ≤ g) :
    qual e (setDistance sentence d) = false := by
  by_contra hq
  have hq2 : qual e (setDistance sentence d) = true := by
    cases hqv : qual e (setDistance sentence d)
    · exact absurd hqv hq
    · rfl
  have hle := (qual_unpack hq2).2.2.2.2
  have := setDistance_le3_gaps hinv hle g hg
  omega

/-! ### Claim theorems -/

/-- C2: a combination is reported by `look_closer` as a match only if the
number of words interposed between every pair of consecutive matched spans is
at most 3; a combination with a consecutive pair 4 or more words apart never
qualifies. -/
theorem C2_locality_bound :
    (∀ (dict : List DictionaryEntry) (pms : List Nat) (sentence : List Char)
      (lem : List Char → List Char) (res : List MatchTriple),
      look_closer dict pms sentence lem = .ok res →
      ∀ m ∈ res, ∃ r0 : RecordDict,
        qual m.1 (setDistance sentence r0) = true ∧
        get_match_span r0.span = some m.2.2 ∧ m.2.1 = r0.mtch.length ∧
        ∀ g ∈ gapsOf sentence r0.span, g ≤ 3) ∧
    (∀ (sentence : List Char) (e : DictionaryEntry) (d : RecordDict),
      lenInv d → (∃ g ∈ gapsOf sentence d.span, 4 ≤ g) →
      qual e (setDistance sentence d) = false) := by
  constructor
  · intro dict pms sentence lem res hok m hm
    rcases look_closer_mem hok m hm with ⟨r0, hinv, hq, hsp, hc⟩
    refine ⟨r0, hq, hsp, hc, ?_⟩
    exact setDistance_le3_gaps hinv (qual_unpack hq).2.2.2.2
  · intro sentence e d hinv hex
    rcases hex with ⟨g, hg, h4⟩
    exact gaps_ge4_not_qual hinv hg h4

/-- Witness for C2 at concrete inputs: the sentence `kick the bucket` (gap of
one word) is reported, and a record with spans `(0,4)`, `(13,19)` in
`kick a b c d bucket` (gap of four words) never qualifies. -/
theorem C2_locality_bound_witness :
    (∀ m ∈ [(entKick, 2, (0, 15))], ∃ r0 : RecordDict,
      qual m.1 (setDistance (str "kick the bucket") r0) = true ∧
      get_match_span r0.span = some m.2.2 ∧ m.2.1 = r0.mtch.length ∧
      ∀ g ∈ gapsOf (str "kick the bucket") r0.span, g ≤ 3) ∧
    qual entKick
      (setDistance (str "kick a b c d bucket")
        { i := 0, mtch := [str "kick", str "bucket"]
          span := [(0, 4), (13, 19)], distance := 0 }) = false := by
  constructor
  · exact C2_locality_bound.1 [entKick] [0] (str "kick the bucket") id
      [(entKick, 2, (0, 15))] (by decide)
  · exact C2_locality_bound.2 (str "kick a b c d bucket") entKick
      { i := 0, mtch := [str "kick", str "bucket"]
        span := [(0, 4), (13, 19)], distance := 0 }
      (by unfold lenInv; decide) (by decide)

/-- C3: for every match returned by `look_closer`, the flattened list of its
matched span offsets is monotonically non-decreasing: sorting the flattened
span list yields the original list again. -/
theorem C3_monotonic_span :
    ∀ (dict : List DictionaryEntry) (pms : List Nat) (sentence : List Char)
      (lem : List Char → List Char) (res : List MatchTriple),
      look_closer dict pms sentence lem = .ok res →
      ∀ m ∈ res, ∃ r0 : RecordDict,
        qual m.1 (setDistance sentence r0) = true ∧
        get_match_span r0.span = some m.2.2 ∧ m.2.1 = r0.mtch.length ∧
        pySortNat (flatSpans r0.span) = flatSpans r0.span ∧
        (flatSpans r0.span).Pairwise (· ≤ ·) := by
  intro dict pms sentence lem res hok m hm
  rcases look_closer_mem hok m hm with ⟨r0, hinv, hq, hsp, hc⟩
  have hs : is_it_sorted (setDistance sentence r0).span = true :=
    (qual_unpack hq).2.2.2.1
  rw [setDistance_span] at hs
  have hfix : pySortNat (flatSpans r0.span) = flatSpans r0.span := by
    rw [is_it_sorted] at hs
    exact beq_iff_eq.mp hs
  exact ⟨r0, hq, hsp, hc, hfix, pairwise_of_pySortNat_fix hfix⟩

/-- Witness for C3 at a concrete input. -/
theorem C3_monotonic_span_witness :
    ∃ r0 : RecordDict,
      qual entKick (setDistance (str "kick a big bucket") r0) = true ∧
      get_match_span r0.span = some (0, 17) ∧ 2 = r0.mtch.length ∧
      pySortNat (flatSpans r0.span) = flatSpans r0.span ∧
      (flatSpans r0.span).Pairwise (· ≤ ·) :=
  C3_monotonic_span [entKick] [0] (str "kick a big bucket") id
    [(entKick, 2, (0, 17))] (by decide) (entKick, 2, (0, 17)) (by decide)

/-- C10: every triple `(entry, count, span)` returned by `look_closer` has
`count` equal to the number of matched words (at least 1) and `span` equal to
the pair (start offset of the first matched span, end offset of the last
matched span), whose first component is at most its second. -/
theorem C10_triple_shape :
    ∀ (dict : List DictionaryEntry) (pms : List Nat) (sentence : List Char)
      (lem : List Char → List Char) (res : List MatchTriple),
      look_closer dict pms sentence lem = .ok res →
      ∀ m ∈ res, ∃ (r0 : RecordDict) (p : Nat × Nat) (t : List (Nat × Nat)),
        qual m.1 (setDistance sentence r0) = true ∧
        r0.span = p :: t ∧ m.2.1 = r0.mtch.length ∧ 1 ≤ m.2.1 ∧
        m.2.2 = (p.1, ((p :: t).getLast (by simp)).2) ∧
        m.2.2.1 ≤ m.2.2.2 := by
  intro dict pms sentence lem res hok m hm
  rcases look_closer_mem hok m hm with ⟨r0, hinv, hq, hsp, hc⟩
  rcases qual_unpack hq with ⟨hm1, hs1, _, hsort, _⟩
  rw [setDistance_span] at hs1
  rw [setDistance_mtch] at hm1
  match hspan : r0.span with
  | [] => exact absurd hspan hs1
  | p :: t =>
    rw [hspan] at hsp
    rw [get_match_span_cons p t] at hsp
    have hspeq : m.2.2 = (p.1, ((p :: t).getLast (by simp)).2) := by
      injection hsp with h
      exact h.symm
    refine ⟨r0, p, t, hq, hspan, hc, ?_, hspeq, ?_⟩
    · rw [hc]
      have : r0.mtch ≠ [] := hm1
      cases hmm : r0.mtch with
      | nil => exact absurd hmm this
      | cons a b => simp
    · rw [setDistance_span, hspan] at hsort
      rw [is_it_sorted] at hsort
      have hpw : (flatSpans (p :: t)).Pairwise (· ≤ ·) :=
        pairwise_of_pySortNat_fix (beq_iff_eq.mp hsort)
      have hhead : (flatSpans (p :: t)).head? = some p.1 := rfl
      have hlast := flatSpans_getLast? t p
      have := pairwise_head_le_getLast hpw hhead hlast
      rw [hspeq]
      exact this

/-- C4: the list returned by `look_closer` is sorted by match-word count in
descending order; entries with equal counts keep the order in which they were
discovered (the pre-sort match list); in particular a count-4 triple always
precedes a count-2 triple. -/
theorem C4_ranking_order :
    ∀ (dict : List DictionaryEntry) (pms : List Nat) (sentence : List Char)
      (lem : List Char → List Char) (res : List MatchTriple),
      look_closer dict pms sentence lem = .ok res →
      (∀ (i j : Fin res.length), i ≤ j → (res.get j).2.1 ≤ (res.get i).2.1) ∧
      (∃ (dictionary : List DictionaryEntry) (recs : List (List RecordDict))
        (ms : List MatchTriple),
        selectEntries dict pms = .ok dictionary ∧
        buildRecords sentence (joinSpaces ((pySplit sentence).map lem))
          dictionary.enum = .ok recs ∧
        buildMatches
          (dictionary.zip (recs.map (fun ri => ri.map (setDistance sentence))))
          = .ok ms ∧
        res = sortDescM ms ∧
        ∀ c : Nat, res.filter (fun t => decide (t.2.1 = c)) =
          ms.filter (fun t => decide (t.2.1 = c))) ∧
      (∀ (i j : Fin res.length),
        (res.get i).2.1 = 4 → (res.get j).2.1 = 2 → i < j) := by
  intro dict pms sentence lem res hok
  unfold look_closer at hok
  cases h1 : selectEntries dict pms with
  | error e => simp only [h1] at hok; cases hok
  | ok dictionary =>
    simp only [h1] at hok
    cases h2 : buildRecords sentence (joinSpaces ((pySplit sentence).map lem))
        dictionary.enum with
    | error e => simp only [h2] at hok; cases hok
    | ok recs =>
      simp only [h2] at hok
      cases h3 : buildMatches
          (dictionary.zip (recs.map (fun ri => ri.map (setDistance sentence))))
          with
      | error e => simp only [h3] at hok; cases hok
      | ok ms =>
        simp only [h3] at hok
        cases hok
        have hsorted := sortDescM_pairwise ms
        have hget := List.pairwise_iff_get.mp hsorted
        have horder : ∀ (i j : Fin (sortDescM ms).length), i ≤ j →
            ((sortDescM ms).get j).2.1 ≤ ((sortDescM ms).get i).2.1 := by
          intro i j hij
          rcases lt_or_eq_of_le hij with h | h
          · exact hget i j h
          · rw [h]
        refine ⟨horder, ⟨dictionary, recs, ms, rfl, h2, h3, rfl,
          fun c => sortDescM_stable c ms⟩, ?_⟩
        intro i j hi4 hj2
        by_contra hij
        have : j ≤ i := le_of_not_lt hij
        have := horder j i this
        rw [hi4, hj2] at this
        omega

/-- Witness for C4 at a concrete input where sorting actually reorders:
the count-2 entry is discovered first and the count-4 entry is returned
first. -/
theorem C4_ranking_order_witness :
    (∀ (i j : Fin ([(entFour, 4, (0, 19)), (entKick, 2, (0, 15))] :
        List MatchTriple).length), i ≤ j →
      (([(entFour, 4, (0, 19)), (entKick, 2, (0, 15))] :
        List MatchTriple).get j).2.1 ≤
      (([(entFour, 4, (0, 19)), (entKick, 2, (0, 15))] :
        List MatchTriple).get i).2.1) ∧
    (∃ (dictionary : List DictionaryEntry) (recs : List (List RecordDict))
      (ms : List MatchTriple),
      selectEntries [entKick, entFour] [0, 1] = .ok dictionary ∧
      buildRecords (str "kick the bucket now")
        (joinSpaces ((pySplit (str "kick the bucket now")).map id))
        dictionary.enum = .ok recs ∧
      buildMatches
        (dictionary.zip (recs.map (fun ri =>
          ri.map (setDistance (str "kick the bucket now"))))) = .ok ms ∧
      ([(entFour, 4, (0, 19)), (entKick, 2, (0, 15))] : List MatchTriple) =
        sortDescM ms ∧
      ∀ c : Nat, ([(entFour, 4, (0, 19)), (entKick, 2, (0, 15))] :
          List MatchTriple).filter (fun t => decide (t.2.1 = c)) =
        ms.filter (fun t => decide (t.2.1 = c))) ∧
    (∀ (i j : Fin ([(entFour, 4, (0, 19)), (entKick, 2, (0, 15))] :
        List MatchTriple).length),
      (([(entFour, 4, (0, 19)), (entKick, 2, (0, 15))] :
        List MatchTriple).get i).2.1 = 4 →
      (([(entFour, 4, (0, 19)), (entKick, 2, (0, 15))] :
        List MatchTriple).get j).2.1 = 2 → i < j) :=
  C4_ranking_order [entKick, entFour] [0, 1] (str "kick the bucket now") id
    [(entFour, 4, (0, 19)), (entKick, 2, (0, 15))] (by decide)

/-- A unit whose tag is not `constant` contributes `0` and cannot fail. -/
theorem unitSat_not_constant {sentence : List Char} {lemToks : List (List Char)}
    {a r : List Char} {wf : List (List (List Char))}
    (h : ¬ a = str "constant") : unitSat sentence lemToks a r wf = .ok 0 := by
  rw [unitSat, if_neg h]

theorem constantMatchCount_no_constant {sentence : List Char}
    {lemToks : List (List Char)} :
    ∀ (l : List (List Char × List Char × List (List (List Char)))) (acc : Nat),
      (∀ u ∈ l, ¬ u.1 = str "constant") →
      constantMatchCount sentence lemToks l acc = .ok acc := by
  intro l
  induction l with
  | nil => intro acc _; rfl
  | cons u rest ih =>
    intro acc h
    have hu : ¬ u.1 = str "constant" := h u (List.mem_cons_self _ _)
    rw [show u = (u.1, u.2.1, u.2.2) from rfl, constantMatchCount,
      unitSat_not_constant hu]
    simpa using ih acc (fun u2 hu2 => h u2 (List.mem_cons_of_mem _ hu2))

theorem gpmAux_acc_sub {dict : List DictionaryEntry} {sentence : List Char}
    {lemToks : List (List Char)} :
    ∀ (todo : List DictionaryEntry) (acc res : List Nat),
      gpmAux dict sentence lemToks todo acc = .ok res →
      ∀ x ∈ acc, x ∈ res := by
  intro todo
  induction todo with
  | nil =>
    intro acc res hok x hx
    cases hok
    exact hx
  | cons e rest ih =>
    intro acc res hok x hx
    rw [gpmAux] at hok
    cases hc : constantMatchCount sentence lemToks (unitsOf e) 0 with
    | error e2 => simp only [hc] at hok; cases hok
    | ok m =>
      simp only [hc] at hok
      by_cases hcnt : e.alt.count (str "constant") = m
      · rw [if_pos hcnt] at hok
        exact ih _ res hok x (List.mem_append_left _ hx)
      · rw [if_neg hcnt] at hok
        exact ih _ res hok x hx

theorem gpmAux_constant_free_mem {dict : List DictionaryEntry}
    {sentence : List Char} {lemToks : List (List Char)}
    {e : DictionaryEntry} (hfree : e.alt.count (str "constant") = 0) :
    ∀ (todo : List DictionaryEntry) (acc res : List Nat), e ∈ todo →
      gpmAux dict sentence lemToks todo acc = .ok res →
      dict.indexOf e ∈ res := by
  have hcmc : constantMatchCount sentence lemToks (unitsOf e) 0 = .ok 0 := by
    refine constantMatchCount_no_constant (unitsOf e) 0 ?_
    intro u hu
    intro hc
    have h1 : u.1 ∈ e.alt := (List.of_mem_zip hu).1
    have h2 : str "constant" ∈ e.alt := hc ▸ h1
    have := List.count_pos_iff.mpr h2
    omega
  intro todo
  induction todo with
  | nil => intro acc res hmem; simp at hmem
  | cons e2 rest ih =>
    intro acc res hmem hok
    rw [gpmAux] at hok
    rcases List.mem_cons.mp hmem with he | he
    · subst he
      simp only [hcmc] at hok
      rw [if_pos (by omega : e.alt.count (str "constant") = 0)] at hok
      exact gpmAux_acc_sub rest _ res hok (dict.indexOf e)
        (List.mem_append_right _ (List.mem_singleton.mpr rfl))
    · cases hc : constantMatchCount sentence lemToks (unitsOf e2) 0 with
      | error e3 => simp only [hc] at hok; cases hok
      | ok m =>
        simp only [hc] at hok
        by_cases hcnt : e2.alt.count (str "constant") = m
        · rw [if_pos hcnt] at hok
          exact ih _ res he hok
        · rw [if_neg hcnt] at hok
          exact ih _ res he hok

/-- C9: every dictionary entry whose tag list contains no `constant` unit is
included in the result of `get_potential_matches` for every sentence (its
constant count and satisfied-constant count are both zero). -/
theorem C9_no_constant_passes :
    ∀ (dict : List DictionaryEntry) (sentence : List Char)
      (lem : List Char → List Char) (e : DictionaryEntry) (res : List Nat),
      e ∈ dict → e.alt.count (str "constant") = 0 →
      get_potential_matches dict sentence lem = .ok res →
      constantMatchCount sentence ((pySplit sentence).map lem) (unitsOf e) 0 =
        .ok 0 ∧ dict.indexOf e ∈ res := by
  intro dict sentence lem e res hmem hfree hok
  rw [get_potential_matches] at hok
  constructor
  · refine constantMatchCount_no_constant (unitsOf e) 0 ?_
    intro u hu hc
    have h1 : u.1 ∈ e.alt := (List.of_mem_zip hu).1
    have h2 : str "constant" ∈ e.alt := hc ▸ h1
    have := List.count_pos_iff.mpr h2
    omega
  · exact gpmAux_constant_free_mem hfree dict [] res hmem hok

/-- Witness for C9 at a concrete input. -/
theorem C9_no_constant_passes_witness :
    constantMatchCount (str "anything at all")
      ((pySplit (str "anything at all")).map id) (unitsOf entNoConst) 0 =
      .ok 0 ∧ [entNoConst].indexOf entNoConst ∈ [0] :=
  C9_no_constant_passes [entNoConst] (str "anything at all") id entNoConst [0]
    (by decide) (by decide) (by decide)

/-- C8: when no dictionary entry qualifies, `find_idioms` returns the empty
list rather than an error; in general its result is the top-`limit` ranked
matches with consecutive identical `(entry, span)` pairs deduplicated and
projected to the requested output fields. -/
theorem C8_empty_result :
    ∀ (dict : List DictionaryEntry) (sentence : List Char)
      (lem : List Char → List Char) (limit : Nat) (fl : OutputFlags),
      (∀ pm : List Nat, get_potential_matches dict sentence lem = .ok pm →
        look_closer dict pm sentence lem = .ok [] →
        find_idioms dict sentence lem limit fl = .ok []) ∧
      (∀ out : List OutputItem,
        find_idioms dict sentence lem limit fl = .ok out →
        ∃ (pm : List Nat) (lc : List MatchTriple),
          get_potential_matches dict sentence lem = .ok pm ∧
          look_closer dict pm sentence lem = .ok lc ∧
          out = (collapseRuns
            ((lc.take limit).map (fun it => (it.1, it.2.2)))).map
            (projectMatch fl)) := by
  intro dict sentence lem limit fl
  constructor
  · intro pm h1 h2
    rw [find_idioms]
    simp only [h1, h2, List.take_nil, List.map_nil, collapseRuns]
  · intro out hok
    rw [find_idioms] at hok
    cases h1 : get_potential_matches dict sentence lem with
    | error e => simp only [h1] at hok; cases hok
    | ok pm =>
      simp only [h1] at hok
      cases h2 : look_closer dict pm sentence lem with
      | error e => simp only [h2] at hok; cases hok
      | ok lc =>
        simp only [h2] at hok
        cases hok
        exact ⟨pm, lc, rfl, h2, rfl⟩

/-- Witness for C8 at a concrete input: a sentence with no idiomatic content
yields the empty list, and the shape decomposition holds for it. -/
theorem C8_empty_result_witness :
    find_idioms [entKick] (str "hello world") id 10
      ⟨false, true, false, false⟩ = .ok [] ∧
    ∃ (pm : List Nat) (lc : List MatchTriple),
      get_potential_matches [entKick] (str "hello world") id = .ok pm ∧
      look_closer [entKick] pm (str "hello world") id = .ok lc ∧
      ([] : List OutputItem) = (collapseRuns
        ((lc.take 10).map (fun it => (it.1, it.2.2)))).map
        (projectMatch ⟨false, true, false, false⟩) := by
  constructor
  · exact (C8_empty_result [entKick] (str "hello world") id 10
      ⟨false, true, false, false⟩).1 [] (by decide) (by decide)
  · exact (C8_empty_result [entKick] (str "hello world") id 10
      ⟨false, true, false, false⟩).2 []
      ((C8_empty_result [entKick] (str "hello world") id 10
        ⟨false, true, false, false⟩).1 [] (by decide) (by decide))

/-! ### C7: well-formed `word_forms` never raise -/

/-- Well-formedness of an entry's `word_forms`: every unit the matcher
processes has at least one inflection list per constituent word. -/
def entryWFOK (e : DictionaryEntry) : Prop :=
  ∀ u ∈ unitsOf e, u.1 ∈ fourTags → (pySplit u.2.1).length ≤ u.2.2.length

theorem wordMatchCountAux_ok {sentence : List Char}
    {lemToks : List (List Char)} {wf : List (List (List Char))} :
    ∀ (l : List (Nat × List Char)) (acc : Nat),
      (∀ p ∈ l, p.1 < wf.length) →
      ∃ n, wordMatchCountAux sentence lemToks wf l acc = .ok n := by
  intro l
  induction l with
  | nil => intro acc _; exact ⟨acc, rfl⟩
  | cons p rest ih =>
    intro acc h
    cases hg : wf.get? p.1 with
    | none =>
      have := List.get?_eq_none.mp hg
      have := h p (List.mem_cons_self _ _)
      omega
    | some forms =>
      rcases ih (acc + if threeTierWord sentence lemToks p.2 forms then 1
          else 0) (fun q hq => h q (List.mem_cons_of_mem _ hq)) with ⟨n, hn⟩
      refine ⟨n, ?_⟩
      rw [show p = (p.1, p.2) from rfl, wordMatchCountAux, hg]
      exact hn

theorem unitSat_ok {sentence : List Char} {lemToks : List (List Char)}
    {a r : List Char} {wf : List (List (List Char))}
    (h : a = str "constant" → (pySplit r).length ≤ wf.length) :
    ∃ n, unitSat sentence lemToks a r wf = .ok n := by
  by_cases ha : a = str "constant"
  · rw [unitSat, if_pos ha]
    by_cases hsub : containsSub r sentence
    · rw [if_pos hsub]
      exact ⟨1, rfl⟩
    · rw [if_neg hsub]
      by_cases h1 : (pySplit r).length = 1
      · rw [if_pos h1]
        cases wf with
        | nil =>
          have := h ha
          rw [h1] at this
          simp at this
        | cons forms rest => exact ⟨_, rfl⟩
      · rw [if_neg h1]
        by_cases h2 : 1 < (pySplit r).length
        · rw [if_pos h2]
          have hbound : ∀ p ∈ (pySplit r).enum, p.1 < wf.length := by
            intro p hp
            have hlt := (List.mem_enum hp).1
            have := h ha
            omega
          rcases wordMatchCountAux_ok ((pySplit r).enum) 0 hbound with ⟨n, hn⟩
          rw [hn]
          exact ⟨_, rfl⟩
        · rw [if_neg h2]
          exact ⟨0, rfl⟩
  · exact ⟨0, unitSat_not_constant ha⟩

theorem constantMatchCount_ok {sentence : List Char}
    {lemToks : List (List Char)} :
    ∀ (l : List (List Char × List Char × List (List (List Char)))) (acc : Nat),
      (∀ u ∈ l, u.1 = str "constant" → (pySplit u.2.1).length ≤ u.2.2.length) →
      ∃ n, constantMatchCount sentence lemToks l acc = .ok n := by
  intro l
  induction l with
  | nil => intro acc _; exact ⟨acc, rfl⟩
  | cons u rest ih =>
    intro acc h
    rcases unitSat_ok (h u (List.mem_cons_self _ _)) with ⟨inc, hinc⟩
    rcases ih (acc + inc) (fun u2 hu2 => h u2 (List.mem_cons_of_mem _ hu2))
      with ⟨n, hn⟩
    refine ⟨n, ?_⟩
    rw [show u = (u.1, u.2.1, u.2.2) from rfl, constantMatchCount, hinc]
    exact hn

theorem gpmAux_ok {dict : List DictionaryEntry} {sentence : List Char}
    {lemToks : List (List Char)} :
    ∀ (todo : List DictionaryEntry) (acc : List Nat),
      (∀ e ∈ todo, entryWFOK e) →
      ∃ res, gpmAux dict sentence lemToks todo acc = .ok res := by
  intro todo
  induction todo with
  | nil => intro acc _; exact ⟨acc, rfl⟩
  | cons e rest ih =>
    intro acc h
    have hwf : ∀ u ∈ unitsOf e, u.1 = str "constant" →
        (pySplit u.2.1).length ≤ u.2.2.length := by
      intro u hu hc
      exact h e (List.mem_cons_self _ _) u hu (by rw [hc]; decide)
    rcases constantMatchCount_ok (unitsOf e) 0 hwf with ⟨m, hm⟩
    rcases ih (if e.alt.count (str "constant") = m
        then acc ++ [dict.indexOf e] else acc)
      (fun e2 he2 => h e2 (List.mem_cons_of_mem _ he2)) with ⟨res, hres⟩
    refine ⟨res, ?_⟩
    rw [gpmAux, hm]
    exact hres

theorem processConstituents_ok {sentence lemmaStr : List Char}
    {wf : List (List (List Char))} :
    ∀ (l : List (Nat × List Char)) (recI : List RecordDict),
      (∀ p ∈ l, p.1 < wf.length) →
      ∃ out, processConstituents sentence lemmaStr wf l recI = .ok out := by
  intro l
  induction l with
  | nil => intro recI _; exact ⟨recI, rfl⟩
  | cons p rest ih =>
    intro recI h
    cases hg : wf.get? p.1 with
    | none =>
      have := List.get?_eq_none.mp hg
      have := h p (List.mem_cons_self _ _)
      omega
    | some forms =>
      rcases ih (processWord sentence lemmaStr p.2 forms recI)
        (fun q hq => h q (List.mem_cons_of_mem _ hq)) with ⟨out, hout⟩
      refine ⟨out, ?_⟩
      rw [show p = (p.1, p.2) from rfl, processConstituents, hg]
      exact hout

theorem processUnit_ok {sentence lemmaStr : List Char}
    {recI : List RecordDict}
    {u : List Char × List Char × List (List (List Char))}
    (h : u.1 ∈ fourTags → (pySplit u.2.1).length ≤ u.2.2.length) :
    ∃ out, processUnit sentence lemmaStr recI u = .ok out := by
  rw [processUnit]
  by_cases h1 : u.1 ∈ fourTags ∧ (pySplit u.2.1).length = 1
  · rw [if_pos h1]
    cases hwf : u.2.2 with
    | nil =>
      have := h h1.1
      rw [hwf, h1.2] at this
      simp at this
    | cons forms rest =>
      exact ⟨_, rfl⟩
  · rw [if_neg h1]
    by_cases h2 : u.1 ∈ fourTags ∧ 1 < (pySplit u.2.1).length
    · rw [if_pos h2]
      refine processConstituents_ok ((pySplit u.2.1).enum) recI ?_
      intro p hp
      have hlt := (List.mem_enum hp).1
      have := h h2.1
      omega
    · rw [if_neg h2]
      exact ⟨recI, rfl⟩

theorem processUnits_ok {sentence lemmaStr : List Char} :
    ∀ (l : List (List Char × List Char × List (List (List Char))))
      (recI : List RecordDict),
      (∀ u ∈ l, u.1 ∈ fourTags → (pySplit u.2.1).length ≤ u.2.2.length) →
      ∃ out, processUnits sentence lemmaStr l recI = .ok out := by
  intro l
  induction l with
  | nil => intro recI _; exact ⟨recI, rfl⟩
  | cons u rest ih =>
    intro recI h
    rcases processUnit_ok (h u (List.mem_cons_self _ _)) with ⟨recI2, h2⟩
    rcases ih recI2 (fun u2 hu2 => h u2 (List.mem_cons_of_mem _ hu2))
      with ⟨out, hout⟩
    refine ⟨out, ?_⟩
    rw [processUnits, h2]
    exact hout

theorem buildRecords_ok (sentence lemmaStr : List Char) :
    ∀ (l : List (Nat × DictionaryEntry)), (∀ ie ∈ l, entryWFOK ie.2) →
      ∃ out, buildRecords sentence lemmaStr l = .ok out := by
  intro l
  induction l with
  | nil => intro _; exact ⟨[], rfl⟩
  | cons ie rest ih =>
    intro h
    rcases processUnits_ok (unitsOf ie.2) _ (h ie (List.mem_cons_self _ _))
      with ⟨r, hr⟩
    rcases ih (fun ie2 hie2 => h ie2 (List.mem_cons_of_mem _ hie2))
      with ⟨t, ht⟩
    refine ⟨r :: t, ?_⟩
    have hbre : buildRecordEntry sentence lemmaStr ie.1 ie.2 = .ok r := hr
    rw [show ie = (ie.1, ie.2) from rfl, buildRecords, hbre, ht]

theorem selectEntries_ok {dict : List DictionaryEntry} :
    ∀ (pms : List Nat), (∀ j ∈ pms, j < dict.length) →
      ∃ out, selectEntries dict pms = .ok out ∧ ∀ x ∈ out, x ∈ dict := by
  intro pms
  induction pms with
  | nil => intro _; exact ⟨[], rfl, by simp⟩
  | cons j t ih =>
    intro h
    cases hg : dict.get? j with
    | none =>
      have := List.get?_eq_none.mp hg
      have := h j (List.mem_cons_self _ _)
      omega
    | some e =>
      rcases ih (fun j2 hj2 => h j2 (List.mem_cons_of_mem _ hj2))
        with ⟨rest, hrest, hmem⟩
      refine ⟨e :: rest, ?_, ?_⟩
      · rw [selectEntries, hg]
        simp only [hrest]
      · intro x hx
        rcases List.mem_cons.mp hx with hx | hx
        · exact hx ▸ List.get?_mem hg
        · exact hmem x hx

theorem buildMatches_ok :
    ∀ (pairs : List (DictionaryEntry × List RecordDict)),
      ∃ ms, buildMatches pairs = .ok ms := by
  intro pairs
  induction pairs with
  | nil => exact ⟨[], rfl⟩
  | cons p rest ih =>
    rcases ih with ⟨tl, htl⟩
    have hms : buildMatches ((p.1, p.2) :: rest) =
        buildMatches ((p.1, p.2) :: rest) := rfl
    cases hf : p.2.find? (qual p.1) with
    | none =>
      conv at hms => rhs; rw [buildMatches]
      simp only [hf] at hms
      exact ⟨tl, hms.trans htl⟩
    | some r =>
      have hq : qual p.1 r = true := List.find?_some hf
      have hs : r.span ≠ [] := (qual_unpack hq).2.1
      cases hspan : r.span with
      | nil => exact absurd hspan hs
      | cons q t =>
        have hg : get_match_span r.span =
            some (q.1, ((q :: t).getLast (by simp)).2) := by
          rw [hspan, get_match_span_cons q t]
        conv at hms => rhs; rw [buildMatches]
        simp only [hf, hg, htl] at hms
        exact ⟨_, hms⟩

/-- C7 counterexample: an entry whose only constant has an empty `word_forms`
list (`wf[0]` missing) makes both `get_potential_matches` and `look_closer`
raise an uncaught `IndexError` (modelled as `.error ()`) instead of skipping
the entry. -/
theorem C7_counterexample :
    get_potential_matches [entBad] (str "hello") id = .error () ∧
    look_closer [entBad] [0] (str "hello") id = .error () := by decide

/-- C7 (amended): the `wf[0]` / `wf[c]` word-form lookups are outside any
`try/except`, so a malformed `word_forms` list raises an uncaught
`IndexError`; when every processed unit has at least one inflection list per
constituent word (and the candidate indices are in range), both search
functions return normally. -/
theorem C7_amended_wellformed_ok :
    ∀ (dict : List DictionaryEntry) (sentence : List Char)
      (lem : List Char → List Char), (∀ e ∈ dict, entryWFOK e) →
      (∃ pm, get_potential_matches dict sentence lem = .ok pm) ∧
      (∀ pms : List Nat, (∀ j ∈ pms, j < dict.length) →
        ∃ res, look_closer dict pms sentence lem = .ok res) := by
  intro dict sentence lem hwf
  constructor
  · rw [get_potential_matches]
    exact gpmAux_ok dict [] hwf
  · intro pms hpms
    rcases selectEntries_ok pms hpms with ⟨dictionary, hsel, hsub⟩
    have hdwf : ∀ ie ∈ dictionary.enum, entryWFOK ie.2 := by
      intro ie hie
      rcases List.mem_enum hie with ⟨hlt, hx⟩
      refine hwf ie.2 (hsub ie.2 ?_)
      exact hx ▸ List.getElem_mem hlt
    rcases buildRecords_ok sentence (joinSpaces ((pySplit sentence).map lem))
      dictionary.enum hdwf with ⟨recs, hrecs⟩
    rcases buildMatches_ok
      (dictionary.zip (recs.map (fun ri => ri.map (setDistance sentence))))
      with ⟨ms, hms⟩
    refine ⟨sortDescM ms, ?_⟩
    rw [look_closer]
    simp only [hsel, hrecs, hms]

/-- Witness for the amended C7 at a concrete well-formed input. -/
theorem C7_amended_wellformed_ok_witness :
    (∃ pm, get_potential_matches [entKick, entFour] (str "kick the bucket now")
      id = .ok pm) ∧
    (∀ pms : List Nat, (∀ j ∈ pms, j < ([entKick, entFour] :
        List DictionaryEntry).length) →
      ∃ res, look_closer [entKick, entFour] pms (str "kick the bucket now") id
        = .ok res) :=
  C7_amended_wellformed_ok [entKick, entFour] (str "kick the bucket now") id
    (by unfold entryWFOK; decide)

/-! ### C6: the shape of every regex match -/

theorem findAllAux_mem {alts : List (List Char)} {s : List Char} :
    ∀ (fuel pos : Nat) (x : List Char × Nat × Nat),
      x ∈ findAllAux alts s fuel pos → ∃ p, tryMatchAt alts s p = some x := by
  intro fuel
  induction fuel with
  | zero => intro pos x hx; simp [findAllAux] at hx
  | succ fuel ih =>
    intro pos x hx
    rw [findAllAux] at hx
    by_cases hp : pos > s.length
    · rw [if_pos hp] at hx
      simp at hx
    · rw [if_neg hp] at hx
      cases ht : tryMatchAt alts s pos with
      | none =>
        rw [ht] at hx
        exact ih (pos + 1) x hx
      | some f =>
        rw [ht] at hx
        rcases List.mem_cons.mp hx with hx | hx
        · exact ⟨pos, by rw [ht, hx]⟩
        · by_cases hz : f.2.2 ≤ f.2.1
          · rw [if_pos hz] at hx
            exact ih (pos + 1) x hx
          · rw [if_neg hz] at hx
            exact ih f.2.2 x hx

theorem tryMatchAt_spec {alts : List (List Char)} {s : List Char} {pos : Nat}
    {txt : List Char} {a b : Nat}
    (h : tryMatchAt alts s pos = some (txt, a, b)) :
    wordBoundary s pos = true ∧ a = pos ∧ ∃ f ∈ alts,
      altMatchAt s pos f = true ∧ txt = (s.drop pos).take f.length ∧
      b = pos + f.length := by
  rw [tryMatchAt] at h
  by_cases hb : wordBoundary s pos
  · rw [if_pos hb] at h
    cases hf : alts.find? (fun f => altMatchAt s pos f) with
    | none => rw [hf] at h; cases h
    | some f =>
      rw [hf] at h
      injection h with h2
      have h3 := congrArg Prod.fst h2
      have h4 := congrArg (fun q => q.2.1) h2
      have h5 := congrArg (fun q => q.2.2) h2
      simp at h3 h4 h5
      exact ⟨hb, h4.symm, f, List.mem_of_find?_eq_some hf,
        List.find?_some hf, h3.symm, h5.symm⟩
  · rw [if_neg hb] at h
    cases h

theorem altMatchAt_spec {s : List Char} {pos : Nat} {f : List Char}
    (h : altMatchAt s pos f = true) :
    ((s.drop pos).take f.length).length = f.length ∧
    ((s.drop pos).take f.length).map lowC = f.map lowC ∧
    wordBoundary s (pos + f.length) = true := by
  rw [altMatchAt] at h
  simp only [Bool.and_eq_true, decide_eq_true_eq] at h
  exact ⟨h.1.1, h.1.2, h.2⟩

/-- C6: the word-occurrence search is a single case-insensitive,
word-boundary-anchored alternation over the accepted surface forms: every
reported occurrence is one full surface form (matched case-insensitively as a
single contiguous span of exactly the form's length, so a form with an
internal apostrophe is matched as one word, never split at the apostrophe),
with word boundaries holding at both ends and nowhere required inside. -/
theorem C6_alternation_shape :
    ∀ (forms : List (List Char)) (s txt : List Char) (a b : Nat),
      forms ≠ [] → (txt, a, b) ∈ findAll forms s →
      ∃ f ∈ forms, b = a + f.length ∧ txt = (s.drop a).take f.length ∧
        txt.length = f.length ∧ txt.map lowC = f.map lowC ∧
        wordBoundary s a = true ∧ wordBoundary s b = true := by
  intro forms s txt a b hne hmem
  rw [findAll] at hmem
  rw [show altsOfJoin forms = forms from if_neg hne] at hmem
  rcases findAllAux_mem _ 0 (txt, a, b) hmem with ⟨p, hp⟩
  rcases tryMatchAt_spec hp with ⟨hbound, hap, f, hf, halt, htxt, hb⟩
  rcases altMatchAt_spec halt with ⟨hlen, hlow, hbound2⟩
  subst hap
  refine ⟨f, hf, hb, htxt, ?_, ?_, hbound, ?_⟩
  · rw [htxt]
    exact hlen
  · rw [htxt]
    exact hlow
  · rw [hb]
    exact hbound2

/-- Witness for C6: the possessive surface form `john's` is matched as one
six-character word in `bob john's cat`. -/
theorem C6_alternation_shape_witness :
    ∃ f ∈ [str "john's"], 10 = 4 + f.length ∧
      str "john's" = ((str "bob john's cat").drop 4).take f.length ∧
      (str "john's").length = f.length ∧
      (str "john's").map lowC = f.map lowC ∧
      wordBoundary (str "bob john's cat") 4 = true ∧
      wordBoundary (str "bob john's cat") 10 = true :=
  C6_alternation_shape [str "john's"] (str "bob john's cat") (str "john's")
    4 10 (by decide) (by decide)

/-! ### C5: multi-word constants require every constituent to pass -/

theorem containsSub_iff_within {needle : List Char} :
    ∀ {hay : List Char}, containsSub needle hay = true ↔ needle <:+: hay := by
  intro hay
  induction hay with
  | nil =>
    rw [containsSub, List.isPrefixOf_iff_prefix, List.infix_nil,
      List.prefix_nil]
  | cons c t ih =>
    rw [containsSub, Bool.or_eq_true, List.isPrefixOf_iff_prefix, ih,
      List.infix_cons_iff]

theorem pySplitAux_within :
    ∀ (s acc w : List Char), w ∈ pySplitAux s acc →
      w <:+: (acc.reverse ++ s) := by
  intro s
  induction s with
  | nil =>
    intro acc w hw
    rw [pySplitAux] at hw
    by_cases ha : acc = ([] : List Char)
    · rw [if_pos ha] at hw
      simp at hw
    · rw [if_neg ha] at hw
      have : w = acc.reverse := by simpa using hw
      rw [this]
      simp
  | cons c cs ih =>
    intro acc w hw
    rw [pySplitAux] at hw
    by_cases hc : c.isWhitespace
    · rw [if_pos hc] at hw
      by_cases ha : acc = ([] : List Char)
      · rw [if_pos ha] at hw
        have h1 := ih [] w hw
        simp at h1
        rw [ha]
        simp
        exact List.infix_cons h1
      · rw [if_neg ha] at hw
        rcases List.mem_cons.mp hw with hw | hw
        · rw [hw]
          exact (List.prefix_append acc.reverse (c :: cs)).isInfix
        · have h1 := ih [] w hw
          simp at h1
          refine h1.trans ?_
          refine ((List.suffix_cons c cs).trans ?_).isInfix
          exact List.suffix_append acc.reverse (c :: cs)
    · rw [if_neg hc] at hw
      have h1 := ih (c :: acc) w hw
      rw [List.reverse_cons, List.append_assoc] at h1
      simpa using h1

theorem pySplit_within {s w : List Char} (hw : w ∈ pySplit s) : w <:+: s := by
  have := pySplitAux_within s [] w hw
  simpa using this

theorem containsSub_of_word {w r sentence : List Char} (hw : w ∈ pySplit r)
    (hr : containsSub r sentence = true) :
    containsSub w sentence = true :=
  containsSub_iff_within.mpr
    ((pySplit_within hw).trans (containsSub_iff_within.mp hr))

theorem threeTier_false_sub {sentence : List Char} {lemToks : List (List Char)}
    {w : List Char} {forms : List (List Char)}
    (h : threeTierWord sentence lemToks w forms = false) :
    containsSub w sentence = false := by
  rw [threeTierWord] at h
  cases hcs : containsSub w sentence
  · rfl
  · rw [hcs] at h
    simp at h

theorem wmcAux_bound {sentence : List Char} {lemToks : List (List Char)}
    {wf : List (List (List Char))} :
    ∀ (l : List (Nat × List Char)) (acc n : Nat),
      wordMatchCountAux sentence lemToks wf l acc = .ok n →
      acc ≤ n ∧ n ≤ acc + l.length := by
  intro l
  induction l with
  | nil =>
    intro acc n hok
    cases hok
    omega
  | cons p rest ih =>
    intro acc n hok
    rw [show p = (p.1, p.2) from rfl, wordMatchCountAux] at hok
    cases hg : wf.get? p.1 with
    | none => rw [hg] at hok; cases hok
    | some forms =>
      rw [hg] at hok
      have := ih _ n hok
      by_cases ht : threeTierWord sentence lemToks p.2 forms
      · rw [if_pos ht] at this; simp only [List.length_cons]; omega
      · rw [if_neg ht] at this; simp only [List.length_cons]; omega

theorem wmcAux_full {sentence : List Char} {lemToks : List (List Char)}
    {wf : List (List (List Char))} :
    ∀ (l : List (Nat × List Char)) (acc n : Nat),
      wordMatchCountAux sentence lemToks wf l acc = .ok n →
      n = acc + l.length →
      ∀ p ∈ l, ∃ forms, wf.get? p.1 = some forms ∧
        threeTierWord sentence lemToks p.2 forms = true := by
  intro l
  induction l with
  | nil => intro acc n _ _ p hp; simp at hp
  | cons q rest ih =>
    intro acc n hok hfull p hp
    rw [show q = (q.1, q.2) from rfl, wordMatchCountAux] at hok
    cases hg : wf.get? q.1 with
    | none => rw [hg] at hok; cases hok
    | some forms =>
      rw [hg] at hok
      have hok2 : wordMatchCountAux sentence lemToks wf rest
          (acc + if threeTierWord sentence lemToks q.2 forms then 1 else 0) =
          .ok n := hok
      by_cases ht : threeTierWord sentence lemToks q.2 forms
      · rw [if_pos ht] at hok2
        rcases List.mem_cons.mp hp with hp | hp
        · exact ⟨forms, hp ▸ hg, hp ▸ ht⟩
        · refine ih (acc + 1) n hok2 ?_ p hp
          simp only [List.length_cons] at hfull
          omega
      · rw [if_neg ht] at hok2
        exfalso
        have hb := wmcAux_bound rest (acc + 0) n hok2
        simp only [List.length_cons] at hfull
        omega

theorem unitSat_multi_only_if {sentence : List Char}
    {lemToks : List (List Char)} {r : List Char}
    {wf : List (List (List Char))} (hlen : 1 < (pySplit r).length)
    (hok : unitSat sentence lemToks (str "constant") r wf = .ok 1) :
    ∀ p ∈ (pySplit r).enum, containsSub p.2 sentence = true ∨
      ∃ forms, wf.get? p.1 = some forms ∧
        threeTierWord sentence lemToks p.2 forms = true := by
  intro p hp
  rw [unitSat, if_pos rfl] at hok
  by_cases hsub : containsSub r sentence
  · left
    have hmem : p.2 ∈ pySplit r := by
      rcases List.mem_enum hp with ⟨hlt, hx⟩
      exact hx ▸ List.getElem_mem hlt
    exact containsSub_of_word hmem hsub
  · right
    rw [if_neg hsub, if_neg (by omega : ¬ (pySplit r).length = 1),
      if_pos hlen] at hok
    cases hn : wordMatchCountAux sentence lemToks wf ((pySplit r).enum) 0 with
    | error e => rw [hn] at hok; cases hok
    | ok n =>
      rw [hn] at hok
      injection hok with hok2
      by_cases hfull : n = (pySplit r).length
      · refine wmcAux_full ((pySplit r).enum) 0 n hn ?_ p hp
        simp [hfull]
      · rw [if_neg hfull] at hok2
        omega

/-- C5: a multi-word constant is counted satisfied by
`get_potential_matches` only if every constituent word independently passes
the three-tier check (literal substring, surface-form regex, lemma
membership); consequently a sentence in which `for` and `nothing` pass none
of the three tiers never makes an entry whose only constant is
`want for nothing` a potential match. -/
theorem C5_multiword_constituents :
    (∀ (sentence : List Char) (lemToks : List (List Char)) (r : List Char)
      (wf : List (List (List Char))), 1 < (pySplit r).length →
      unitSat sentence lemToks (str "constant") r wf = .ok 1 →
      ∀ p ∈ (pySplit r).enum, containsSub p.2 sentence = true ∨
        ∃ forms, wf.get? p.1 = some forms ∧
          threeTierWord sentence lemToks p.2 forms = true) ∧
    (∀ (sentence : List Char) (lem : List Char → List Char)
      (fw ff fn : List (List Char)),
      threeTierWord sentence ((pySplit sentence).map lem) (str "for") ff =
        false →
      threeTierWord sentence ((pySplit sentence).map lem) (str "nothing") fn =
        false →
      get_potential_matches [wantEntry fw ff fn] sentence lem = .ok []) := by
  constructor
  · intro sentence lemToks r wf hlen hok
    exact unitSat_multi_only_if hlen hok
  · intro sentence lem fw ff fn hff hfn
    set lemToks := (pySplit sentence).map lem with hlt
    have hsplit : pySplit (str "want for nothing") =
        [str "want", str "for", str "nothing"] := by decide
    have hcsub : containsSub (str "want for nothing") sentence = false := by
      cases hc : containsSub (str "want for nothing") sentence
      · rfl
      · exfalso
        have hfor : containsSub (str "for") sentence = true :=
          containsSub_of_word (by rw [hsplit]; decide) hc
        rw [threeTier_false_sub hff] at hfor
        cases hfor
    have husat : unitSat sentence lemToks (str "constant")
        (str "want for nothing") [fw, ff, fn] = .ok 0 := by
      rw [unitSat, if_pos rfl, if_neg (by rw [hcsub]; simp),
        if_neg (by rw [hsplit]; decide), if_pos (by rw [hsplit]; decide)]
      have hbound : ∀ p ∈ (pySplit (str "want for nothing")).enum,
          p.1 < ([fw, ff, fn] : List (List (List Char))).length := by
        intro p hp
        rw [hsplit] at hp
        have h1 := (List.mem_enum hp).1
        simpa using h1
      rcases wordMatchCountAux_ok ((pySplit (str "want for nothing")).enum) 0
        hbound with ⟨n, hn⟩
      rw [hn]
      have hne : ¬ n = (pySplit (str "want for nothing")).length := by
        intro hfull
        have hall := wmcAux_full ((pySplit (str "want for nothing")).enum) 0 n
          hn (by rw [hsplit] at hfull ⊢; simpa using hfull)
          (1, str "for") (by rw [hsplit]; decide)
        rcases hall with ⟨forms, hget, htt⟩
        have : forms = ff := by
          have : ([fw, ff, fn] : List (List (List Char))).get? 1 = some ff :=
            rfl
          rw [this] at hget
          injection hget with h2
          exact h2.symm
        rw [this] at htt
        rw [htt] at hff
        cases hff
      show Except.ok
        (if n = (pySplit (str "want for nothing")).length then 1 else 0) =
        Except.ok 0
      rw [if_neg hne]
    have hcmc : constantMatchCount sentence lemToks
        (unitsOf (wantEntry fw ff fn)) 0 = .ok 0 := by
      have hunits : unitsOf (wantEntry fw ff fn) =
          [(str "constant", str "want for nothing", [fw, ff, fn])] := rfl
      rw [hunits, constantMatchCount, husat]
      rfl
    rw [get_potential_matches, ← hlt, gpmAux, hcmc]
    show gpmAux [wantEntry fw ff fn] sentence lemToks []
      (if (wantEntry fw ff fn).alt.count (str "constant") = 0 then
        [] ++ [([wantEntry fw ff fn] :
          List DictionaryEntry).indexOf (wantEntry fw ff fn)]
      else []) = .ok []
    have hcnt : (wantEntry fw ff fn).alt.count (str "constant") = 1 := by
      show ([str "constant"] : List (List Char)).count (str "constant") = 1
      decide
    rw [if_neg (by rw [hcnt]; omega)]
    rfl

/-- Witness for C5: the general direction applied to the concrete `entWant`
record and sentence `I want for nothing`, and the scenario direction applied
to `I want it`. -/
theorem C5_multiword_constituents_witness :
    (∀ p ∈ (pySplit (str "want for nothing")).enum,
      containsSub p.2 (str "I want for nothing") = true ∨
      ∃ forms, ([[str "want", str "wants", str "wanted"], [str "for"],
          [str "nothing"]] : List (List (List Char))).get? p.1 = some forms ∧
        threeTierWord (str "I want for nothing")
          ((pySplit (str "I want for nothing")).map id) p.2 forms = true) ∧
    get_potential_matches
      [wantEntry [str "want", str "wants", str "wanted"] [str "for"]
        [str "nothing"]] (str "I want it") id = .ok [] := by
  constructor
  · exact C5_multiword_constituents.1 (str "I want for nothing")
      ((pySplit (str "I want for nothing")).map id) (str "want for nothing")
      [[str "want", str "wants", str "wanted"], [str "for"], [str "nothing"]]
      (by decide) (by decide)
  · exact C5_multiword_constituents.2 (str "I want it") id
      [str "want", str "wants", str "wanted"] [str "for"] [str "nothing"]
      (by decide) (by decide)

/-! ### C1: pattern counts -/

/-- The word list (runs in original order) of each pre-dedup pattern of
`get_patterns`: `final_output` is the space-join of exactly these lists. -/
def patternWordLists (entry_alt entry_runs : List (List Char)) :
    List (List (List Char)) :=
  (getPatternsOutput entry_alt entry_runs).map
    (fun out => entry_runs.filter (fun w => decide (w ∈ out)))

/-- Formalization of claim C1 for one entry: writing `k` for the number of
`o-constant`/`article` units and `v` for the number of `verb` units, the
pre-dedup pattern list has exactly `2^k + 2^k*v` elements, of which exactly
`2^k` include no verb unit and exactly `2^k*v` include exactly one verb unit,
and every returned pattern's words appear in the original `runs` order. -/
def c1Property (entry_alt entry_runs : List (List Char)) : Prop :=
  getPatternsFinal entry_alt entry_runs =
    (patternWordLists entry_alt entry_runs).map joinSpaces ∧
  (patternWordLists entry_alt entry_runs).length =
    2 ^ (entry_alt.countP
      (fun a => decide (a = str "article" ∨ a = str "o-constant"))) +
    2 ^ (entry_alt.countP
      (fun a => decide (a = str "article" ∨ a = str "o-constant"))) *
      (entry_alt.countP (fun a => decide (a = str "verb"))) ∧
  (patternWordLists entry_alt entry_runs).countP
      (fun ws => (verbsOf entry_alt entry_runs).all
        (fun vb => decide (vb ∉ ws))) =
    2 ^ (entry_alt.countP
      (fun a => decide (a = str "article" ∨ a = str "o-constant"))) ∧
  (patternWordLists entry_alt entry_runs).countP
      (fun ws => decide ((ws.countP
        (fun w => decide (w ∈ verbsOf entry_alt entry_runs))) = 1)) =
    2 ^ (entry_alt.countP
      (fun a => decide (a = str "article" ∨ a = str "o-constant"))) *
      (entry_alt.countP (fun a => decide (a = str "verb"))) ∧
  ∀ p ∈ get_patterns entry_alt entry_runs,
    ∃ ws, List.Sublist ws entry_runs ∧ p = joinSpaces ws

/-- C1 counterexample: for the entry with tags `[verb, constant]` and runs
`[take, take]` (a verb equal to a constant), the membership-based join
aliases the duplicate, so the constant-only combination already contains the
verb word: no pre-dedup pattern is verb-free, refuting the claimed `2^k`
verb-free count (`2^0 = 1`). -/
theorem C1_counterexample :
    ¬ c1Property [str "verb", str "constant"] [str "take", str "take"] := by
  intro h
  exact absurd h.2.2.1 (by decide)

theorem combsAux_length (x : List Char) :
    ∀ (l : List (List (List Char))), (combsAux x l).length = 2 * l.length := by
  intro l
  induction l with
  | nil => rfl
  | cons c rest ih =>
    rw [combsAux]
    simp only [List.length_cons, ih]
    omega

theorem combs_length : ∀ (l : List (List Char)),
    (combs l).length = 2 ^ l.length := by
  intro l
  induction l with
  | nil => rfl
  | cons x t ih =>
    rw [combs, combsAux_length, ih]
    simp only [List.length_cons]
    omega

theorem combs_cons_nil : ∀ (l : List (List Char)),
    ∃ t, combs l = [] :: t := by
  intro l
  induction l with
  | nil => exact ⟨[], rfl⟩
  | cons x rest ih =>
    rcases ih with ⟨t, ht⟩
    rw [combs, ht, combsAux]
    exact ⟨([] ++ [x]) :: combsAux x t, rfl⟩

theorem mem_combsAux (x : List Char) :
    ∀ (cs : List (List (List Char))) (c2 : List (List Char)),
      c2 ∈ combsAux x cs ↔ ∃ c ∈ cs, c2 = c ∨ c2 = c ++ [x] := by
  intro cs
  induction cs with
  | nil => intro c2; simp [combsAux]
  | cons c rest ih =>
    intro c2
    rw [combsAux]
    constructor
    · intro h
      rcases List.mem_cons.mp h with h | h
      · exact ⟨c, List.mem_cons_self _ _, Or.inl h⟩
      · rcases List.mem_cons.mp h with h | h
        · exact ⟨c, List.mem_cons_self _ _, Or.inr h⟩
        · rcases (ih c2).mp h with ⟨c3, hc3, hor⟩
          exact ⟨c3, List.mem_cons_of_mem _ hc3, hor⟩
    · intro h
      rcases h with ⟨c3, hc3, hor⟩
      rcases List.mem_cons.mp hc3 with hc3 | hc3
      · subst hc3
        rcases hor with hor | hor
        · exact hor ▸ List.mem_cons_self _ _
        · exact hor ▸ List.mem_cons_of_mem _ (List.mem_cons_self _ _)
      · refine List.mem_cons_of_mem _ (List.mem_cons_of_mem _ ?_)
        exact (ih c2).mpr ⟨c3, hc3, hor⟩

theorem combs_mem_subset : ∀ (l : List (List Char)) (c : List (List Char)),
    c ∈ combs l → ∀ y ∈ c, y ∈ l := by
  intro l
  induction l with
  | nil =>
    intro c hc y hy
    rw [combs] at hc
    have : c = [] := by simpa using hc
    rw [this] at hy
    simp at hy
  | cons x rest ih =>
    intro c hc y hy
    rw [combs] at hc
    rcases (mem_combsAux x (combs rest) c).mp hc with ⟨c0, hc0, hor⟩
    rcases hor with hor | hor
    · rw [hor] at hy
      exact List.mem_cons_of_mem _ (ih c0 hc0 y hy)
    · rw [hor] at hy
      rcases List.mem_append.mp hy with hy | hy
      · exact List.mem_cons_of_mem _ (ih c0 hc0 y hy)
      · have : y = x := by simpa using hy
        exact this ▸ List.mem_cons_self _ _

theorem flatAppendVerbs_nil (vs : List (List Char)) (hvs : vs = []) :
    ∀ (outs : List (List (List Char))), flatAppendVerbs vs outs = [] := by
  intro outs
  induction outs with
  | nil => rfl
  | cons out rest ih => rw [flatAppendVerbs, ih, hvs]; rfl

theorem flatAppendVerbs_length (vs : List (List Char)) :
    ∀ (outs : List (List (List Char))),
      (flatAppendVerbs vs outs).length = outs.length * vs.length := by
  intro outs
  induction outs with
  | nil => simp [flatAppendVerbs]
  | cons out rest ih =>
    rw [flatAppendVerbs]
    simp only [List.length_append, List.length_map, List.length_cons, ih]
    ring

theorem mem_flatAppendVerbs (vs : List (List Char)) :
    ∀ (outs : List (List (List Char))) (x : List (List Char)),
      x ∈ flatAppendVerbs vs outs ↔
      ∃ out ∈ outs, ∃ vb ∈ vs, x = out ++ [vb] := by
  intro outs
  induction outs with
  | nil => intro x; simp [flatAppendVerbs]
  | cons out rest ih =>
    intro x
    rw [flatAppendVerbs, List.mem_append]
    constructor
    · intro h
      rcases h with h | h
      · rcases List.mem_map.mp h with ⟨vb, hvb, he⟩
        exact ⟨out, List.mem_cons_self _ _, vb, hvb, he.symm⟩
      · rcases (ih x).mp h with ⟨out2, hout2, vb, hvb, he⟩
        exact ⟨out2, List.mem_cons_of_mem _ hout2, vb, hvb, he⟩
    · intro h
      rcases h with ⟨out2, hout2, vb, hvb, he⟩
      rcases List.mem_cons.mp hout2 with h2 | h2
      · subst h2
        exact Or.inl (List.mem_map.mpr ⟨vb, hvb, he.symm⟩)
      · exact Or.inr ((ih x).mpr ⟨out2, h2, vb, hvb, he⟩)

theorem getPatternsOutput_eq (entry_alt entry_runs : List (List Char)) :
    getPatternsOutput entry_alt entry_runs =
      (combs (articlesOf entry_alt entry_runs)).map
        (fun a => constantsOf entry_alt entry_runs ++ a) ++
      flatAppendVerbs (verbsOf entry_alt entry_runs)
        ((combs (articlesOf entry_alt entry_runs)).map
          (fun a => constantsOf entry_alt entry_runs ++ a)) := by
  rw [getPatternsOutput]
  have hout1 : (if (combs (articlesOf entry_alt entry_runs)).length > 1 then
      [constantsOf entry_alt entry_runs] ++
        [constantsOf entry_alt entry_runs].foldr
        (fun out acc =>
          (((combs (articlesOf entry_alt entry_runs)).drop 1).map
            (fun a => out ++ a)) ++ acc) []
      else [constantsOf entry_alt entry_runs]) =
      (combs (articlesOf entry_alt entry_runs)).map
        (fun a => constantsOf entry_alt entry_runs ++ a) := by
    by_cases hart : articlesOf entry_alt entry_runs = []
    · rw [hart]
      rw [if_neg (by rw [show combs [] = [[]] from rfl]; simp)]
      rw [show combs [] = [[]] from rfl]
      simp
    · rcases combs_cons_nil (articlesOf entry_alt entry_runs) with ⟨t, ht⟩
      rw [if_pos (by
        rw [combs_length]
        have : (articlesOf entry_alt entry_runs).length ≠ 0 := by
          intro h0
          exact hart (List.length_eq_zero.mp h0)
        exact Nat.one_lt_two_pow_iff.mpr this)]
      rw [ht]
      simp [List.foldr]
  rw [hout1]
  by_cases hverbs : verbsOf entry_alt entry_runs = []
  · rw [if_neg (by rw [hverbs]; simp), flatAppendVerbs_nil _ hverbs]
    simp
  · rw [if_pos (by
      have : (verbsOf entry_alt entry_runs).length ≠ 0 := by
        intro h0
        exact hverbs (List.length_eq_zero.mp h0)
      omega)]

theorem zip_countP_fst (q : List Char → Bool) :
    ∀ (entry_alt entry_runs : List (List Char)),
      entry_alt.length = entry_runs.length →
      (entry_alt.zip entry_runs).countP (fun p => q p.1) =
        entry_alt.countP q := by
  intro entry_alt
  induction entry_alt with
  | nil => intro rs _; rfl
  | cons a alt2 ih =>
    intro rs hlen
    cases rs with
    | nil => simp at hlen
    | cons r rs2 =>
      rw [List.zip_cons_cons, List.countP_cons, List.countP_cons,
        ih rs2 (by simpa using hlen)]

theorem mem_filter_map_snd {q : List Char × List Char → Bool}
    {zl : List (List Char × List Char)} {x : List Char} :
    x ∈ (zl.filter q).map (·.2) ↔ ∃ a, (a, x) ∈ zl ∧ q (a, x) = true := by
  rw [List.mem_map]
  constructor
  · intro h
    rcases h with ⟨p, hp, he⟩
    rcases List.mem_filter.mp hp with ⟨hmem, hq⟩
    refine ⟨p.1, ?_, ?_⟩
    · rw [show (p.1, x) = p from by rw [← he]]
      exact hmem
    · rw [show (p.1, x) = p from by rw [← he]]
      exact hq
  · intro h
    rcases h with ⟨a, hmem, hq⟩
    exact ⟨(a, x), List.mem_filter.mpr ⟨hmem, hq⟩, rfl⟩

theorem zip_snd_unique :
    ∀ (entry_alt entry_runs : List (List Char)),
      entry_alt.length = entry_runs.length → entry_runs.Nodup →
      ∀ (a1 a2 x : List Char), (a1, x) ∈ entry_alt.zip entry_runs →
        (a2, x) ∈ entry_alt.zip entry_runs → a1 = a2 := by
  intro entry_alt
  induction entry_alt with
  | nil => intro rs _ _ a1 a2 x h1; simp at h1
  | cons a alt2 ih =>
    intro rs hlen hnd a1 a2 x h1 h2
    cases rs with
    | nil => simp at hlen
    | cons r rs2 =>
      rw [List.zip_cons_cons] at h1 h2
      rcases List.nodup_cons.mp hnd with ⟨hr, hnd2⟩
      rcases List.mem_cons.mp h1 with h1 | h1
      · rcases List.mem_cons.mp h2 with h2 | h2
        · injection h1 with h1a h1b
          injection h2 with h2a h2b
          rw [h1a, h2a]
        · injection h1 with h1a h1b
          exfalso
          have := (List.of_mem_zip h2).2
          rw [← h1b] at hr
          exact hr this
      · rcases List.mem_cons.mp h2 with h2 | h2
        · injection h2 with h2a h2b
          exfalso
          have := (List.of_mem_zip h1).2
          rw [← h2b] at hr
          exact hr this
        · exact ih rs2 (by simpa using hlen) hnd2 a1 a2 x h1 h2

theorem mem_verbsOf {entry_alt entry_runs : List (List Char)} {x : List Char}
    (h : x ∈ verbsOf entry_alt entry_runs) :
    (str "verb", x) ∈ entry_alt.zip entry_runs := by
  rcases mem_filter_map_snd.mp h with ⟨a, hmem, hq⟩
  have ha : a = str "verb" := of_decide_eq_true hq
  exact ha ▸ hmem

theorem mem_constantsOf {entry_alt entry_runs : List (List Char)}
    {x : List Char} (h : x ∈ constantsOf entry_alt entry_runs) :
    (str "constant", x) ∈ entry_alt.zip entry_runs := by
  rcases mem_filter_map_snd.mp h with ⟨a, hmem, hq⟩
  have ha : a = str "constant" := of_decide_eq_true hq
  exact ha ▸ hmem

theorem mem_articlesOf {entry_alt entry_runs : List (List Char)}
    {x : List Char} (h : x ∈ articlesOf entry_alt entry_runs) :
    ∃ a, (a, x) ∈ entry_alt.zip entry_runs ∧
      (a = str "article" ∨ a = str "o-constant") := by
  rcases mem_filter_map_snd.mp h with ⟨a, hmem, hq⟩
  exact ⟨a, hmem, of_decide_eq_true hq⟩

theorem verb_notin_constants {entry_alt entry_runs : List (List Char)}
    (hlen : entry_alt.length = entry_runs.length) (hnd : entry_runs.Nodup)
    {vb : List Char} (hv : vb ∈ verbsOf entry_alt entry_runs) :
    vb ∉ constantsOf entry_alt entry_runs := by
  intro hc
  have := zip_snd_unique entry_alt entry_runs hlen hnd (str "verb")
    (str "constant") vb (mem_verbsOf hv) (mem_constantsOf hc)
  exact absurd this (by decide)

theorem verb_notin_articles {entry_alt entry_runs : List (List Char)}
    (hlen : entry_alt.length = entry_runs.length) (hnd : entry_runs.Nodup)
    {vb : List Char} (hv : vb ∈ verbsOf entry_alt entry_runs) :
    vb ∉ articlesOf entry_alt entry_runs := by
  intro hc
  rcases mem_articlesOf hc with ⟨a, hmem, hor⟩
  have := zip_snd_unique entry_alt entry_runs hlen hnd (str "verb") a vb
    (mem_verbsOf hv) hmem
  rcases hor with h2 | h2 <;> rw [h2] at this <;> exact absurd this (by decide)

theorem verbsOf_subset_runs {entry_alt entry_runs : List (List Char)}
    {vb : List Char} (hv : vb ∈ verbsOf entry_alt entry_runs) :
    vb ∈ entry_runs :=
  (List.of_mem_zip (mem_verbsOf hv)).2

theorem articlesOf_length {entry_alt entry_runs : List (List Char)}
    (hlen : entry_alt.length = entry_runs.length) :
    (articlesOf entry_alt entry_runs).length =
      entry_alt.countP
        (fun a => decide (a = str "article" ∨ a = str "o-constant")) := by
  rw [articlesOf, List.length_map, ← List.countP_eq_length_filter]
  exact zip_countP_fst
    (fun a => decide (a = str "article" ∨ a = str "o-constant"))
    entry_alt entry_runs hlen

theorem verbsOf_length {entry_alt entry_runs : List (List Char)}
    (hlen : entry_alt.length = entry_runs.length) :
    (verbsOf entry_alt entry_runs).length =
      entry_alt.countP (fun a => decide (a = str "verb")) := by
  rw [verbsOf, List.length_map, ← List.countP_eq_length_filter]
  exact zip_countP_fst (fun a => decide (a = str "verb"))
    entry_alt entry_runs hlen

theorem dedupFirstAux_subset :
    ∀ (l seen : List (List Char)) (x : List Char),
      x ∈ dedupFirstAux seen l → x ∈ l := by
  intro l
  induction l with
  | nil => intro seen x hx; simp [dedupFirstAux] at hx
  | cons y ys ih =>
    intro seen x hx
    rw [dedupFirstAux] at hx
    by_cases hy : y ∈ seen
    · rw [if_pos hy] at hx
      exact List.mem_cons_of_mem _ (ih seen x hx)
    · rw [if_neg hy] at hx
      rcases List.mem_cons.mp hx with hx | hx
      · exact hx ▸ List.mem_cons_self _ _
      · exact List.mem_cons_of_mem _ (ih (y :: seen) x hx)

/-- C1 (amended): for every entry whose `runs` strings are pairwise distinct
(and whose tag and run lists are aligned, as the data model guarantees),
`get_patterns` produces, before duplicate collapsing, exactly `2^k` patterns
including no verb unit plus `2^k * v` patterns including exactly one verb
unit, and every returned pattern's words appear in the original relative
order of `entry_runs`. -/
theorem C1_amended_pattern_counts :
    ∀ (entry_alt entry_runs : List (List Char)),
      entry_alt.length = entry_runs.length → entry_runs.Nodup →
      c1Property entry_alt entry_runs := by
  intro alt runs hlen hnd
  have hA : (combs (articlesOf alt runs)).length =
      2 ^ (alt.countP
        (fun a => decide (a = str "article" ∨ a = str "o-constant"))) := by
    rw [combs_length, articlesOf_length hlen]
  have hvlen := verbsOf_length hlen
  have hout := getPatternsOutput_eq alt runs
  have hpart1 : ∀ x ∈ ((combs (articlesOf alt runs)).map
      (fun a => constantsOf alt runs ++ a)).map
      (fun out => runs.filter (fun w => decide (w ∈ out))),
      ∀ vb ∈ verbsOf alt runs, vb ∉ x := by
    intro x hx vb hvb hvbx
    rcases List.mem_map.mp hx with ⟨out, hout2, hxe⟩
    rcases List.mem_map.mp hout2 with ⟨a, ha, houte⟩
    rw [← hxe] at hvbx
    rcases List.mem_filter.mp hvbx with ⟨hvruns, hvin⟩
    have hvin2 : vb ∈ out := of_decide_eq_true hvin
    rw [← houte] at hvin2
    rcases List.mem_append.mp hvin2 with h | h
    · exact verb_notin_constants hlen hnd hvb h
    · exact verb_notin_articles hlen hnd hvb (combs_mem_subset _ a ha vb h)
  have hpart2 : ∀ x ∈ (flatAppendVerbs (verbsOf alt runs)
      ((combs (articlesOf alt runs)).map
        (fun a => constantsOf alt runs ++ a))).map
      (fun out => runs.filter (fun w => decide (w ∈ out))),
      x.countP (fun w => decide (w ∈ verbsOf alt runs)) = 1 ∧
      ∃ vb ∈ verbsOf alt runs, vb ∈ x := by
    intro x hx
    rcases List.mem_map.mp hx with ⟨out2, hout2, hxe⟩
    rcases (mem_flatAppendVerbs _ _ out2).mp hout2 with
      ⟨out, houtmem, vb, hvb, he⟩
    rcases List.mem_map.mp houtmem with ⟨a, ha, houte⟩
    have hvbx : vb ∈ x := by
      rw [← hxe]
      refine List.mem_filter.mpr ⟨verbsOf_subset_runs hvb, ?_⟩
      refine decide_eq_true ?_
      rw [he]
      exact List.mem_append.mpr (Or.inr (List.mem_singleton.mpr rfl))
    constructor
    · rw [← hxe, List.countP_filter]
      have hcongr : ∀ w ∈ runs,
          ((decide (w ∈ verbsOf alt runs) : Bool) &&
            decide (w ∈ out2)) = true ↔ (decide (w = vb)) = true := by
        intro w _
        rw [Bool.and_eq_true, decide_eq_true_eq, decide_eq_true_eq,
          decide_eq_true_eq]
        constructor
        · intro hw
          rcases hw with ⟨hwv, hwo⟩
          rw [he] at hwo
          rcases List.mem_append.mp hwo with h | h
          · rw [← houte] at h
            rcases List.mem_append.mp h with h | h
            · exact absurd h (verb_notin_constants hlen hnd hwv)
            · exact absurd (combs_mem_subset _ a ha w h)
                (verb_notin_articles hlen hnd hwv)
          · simpa using h
        · intro hw
          refine ⟨hw ▸ hvb, ?_⟩
          rw [he, hw]
          exact List.mem_append.mpr (Or.inr (List.mem_singleton.mpr rfl))
      rw [List.countP_congr hcongr]
      have hcnt : runs.countP (fun w => decide (w = vb)) =
          @List.count (List Char) instBEqOfDecidableEq vb runs := rfl
      rw [hcnt]
      exact List.count_eq_one_of_mem hnd (verbsOf_subset_runs hvb)
    · exact ⟨vb, hvb, hvbx⟩
  have hwls : patternWordLists alt runs =
      ((combs (articlesOf alt runs)).map
        (fun a => constantsOf alt runs ++ a)).map
        (fun out => runs.filter (fun w => decide (w ∈ out))) ++
      (flatAppendVerbs (verbsOf alt runs)
        ((combs (articlesOf alt runs)).map
          (fun a => constantsOf alt runs ++ a))).map
        (fun out => runs.filter (fun w => decide (w ∈ out))) := by
    rw [patternWordLists, hout, List.map_append]
  have hP1len : (((combs (articlesOf alt runs)).map
      (fun a => constantsOf alt runs ++ a)).map
      (fun out => runs.filter (fun w => decide (w ∈ out)))).length =
      2 ^ (alt.countP
        (fun a => decide (a = str "article" ∨ a = str "o-constant"))) := by
    rw [List.length_map, List.length_map, hA]
  have hP2len : ((flatAppendVerbs (verbsOf alt runs)
      ((combs (articlesOf alt runs)).map
        (fun a => constantsOf alt runs ++ a))).map
      (fun out => runs.filter (fun w => decide (w ∈ out)))).length =
      2 ^ (alt.countP
        (fun a => decide (a = str "article" ∨ a = str "o-constant"))) *
      (alt.countP (fun a => decide (a = str "verb"))) := by
    rw [List.length_map, flatAppendVerbs_length, List.length_map, hA, hvlen]
  refine ⟨?_, ?_, ?_, ?_, ?_⟩
  · rw [patternWordLists, List.map_map]
    rfl
  · rw [hwls, List.length_append, hP1len, hP2len]
  · rw [hwls, List.countP_append]
    have h3a : (((combs (articlesOf alt runs)).map
        (fun a => constantsOf alt runs ++ a)).map
        (fun out => runs.filter (fun w => decide (w ∈ out)))).countP
        (fun ws => (verbsOf alt runs).all (fun vb => decide (vb ∉ ws))) =
        (((combs (articlesOf alt runs)).map
          (fun a => constantsOf alt runs ++ a)).map
          (fun out => runs.filter (fun w => decide (w ∈ out)))).length :=
      List.countP_eq_length.mpr (fun x hx =>
        List.all_eq_true.mpr (fun vb hvb =>
          decide_eq_true (hpart1 x hx vb hvb)))
    have h3b : ((flatAppendVerbs (verbsOf alt runs)
        ((combs (articlesOf alt runs)).map
          (fun a => constantsOf alt runs ++ a))).map
        (fun out => runs.filter (fun w => decide (w ∈ out)))).countP
        (fun ws => (verbsOf alt runs).all (fun vb => decide (vb ∉ ws))) = 0 :=
      List.countP_eq_zero.mpr (fun x hx hall => by
        rcases (hpart2 x hx).2 with ⟨vb, hvb, hvbx⟩
        have := List.all_eq_true.mp hall vb hvb
        exact absurd hvbx (of_decide_eq_true this))
    rw [h3a, h3b, hP1len]
    omega
  · rw [hwls, List.countP_append]
    have h4a : (((combs (articlesOf alt runs)).map
        (fun a => constantsOf alt runs ++ a)).map
        (fun out => runs.filter (fun w => decide (w ∈ out)))).countP
        (fun ws => decide ((ws.countP
          (fun w => decide (w ∈ verbsOf alt runs))) = 1)) = 0 :=
      List.countP_eq_zero.mpr (fun x hx hone => by
        have h0 : x.countP (fun w => decide (w ∈ verbsOf alt runs)) = 0 :=
          List.countP_eq_zero.mpr (fun w hw hwv =>
            hpart1 x hx w (of_decide_eq_true hwv) hw)
        have h1 := of_decide_eq_true hone
        omega)
    have h4b : ((flatAppendVerbs (verbsOf alt runs)
        ((combs (articlesOf alt runs)).map
          (fun a => constantsOf alt runs ++ a))).map
        (fun out => runs.filter (fun w => decide (w ∈ out)))).countP
        (fun ws => decide ((ws.countP
          (fun w => decide (w ∈ verbsOf alt runs))) = 1)) =
        ((flatAppendVerbs (verbsOf alt runs)
          ((combs (articlesOf alt runs)).map
            (fun a => constantsOf alt runs ++ a))).map
          (fun out => runs.filter (fun w => decide (w ∈ out)))).length :=
      List.countP_eq_length.mpr (fun x hx =>
        decide_eq_true (hpart2 x hx).1)
    rw [h4a, h4b, hP2len]
    omega
  · intro p hp
    have hp2 : p ∈ getPatternsFinal alt runs :=
      dedupFirstAux_subset _ [] p hp
    rcases List.mem_map.mp hp2 with ⟨out, _, hpe⟩
    exact ⟨runs.filter (fun w => decide (w ∈ out)),
      List.filter_sublist runs, hpe.symm⟩

/-- Witness for the amended C1 at the docstring's `*a free hand` entry:
seven aligned units, pairwise-distinct runs, `k = 2`, `v = 3`. -/
theorem C1_amended_pattern_counts_witness :
    c1Property
      [str "verb", str "verb", str "verb", str "article", str "constant",
       str "o-constant", str "variable"]
      [str "get", str "have", str "give", str "a", str "free hand",
       str "with", str "someone or something"] :=
  C1_amended_pattern_counts
    [str "verb", str "verb", str "verb", str "article", str "constant",
     str "o-constant", str "variable"]
    [str "get", str "have", str "give", str "a", str "free hand",
     str "with", str "someone or something"]
    (by decide) (by decide)

/-- Witness for C10 at a concrete input. -/
theorem C10_triple_shape_witness :
    ∃ (r0 : RecordDict) (p : Nat × Nat) (t : List (Nat × Nat)),
      qual entFour (setDistance (str "kick the bucket now") r0) = true ∧
      r0.span = p :: t ∧ 4 = r0.mtch.length ∧ 1 ≤ 4 ∧
      ((0, 19) : Nat × Nat) = (p.1, ((p :: t).getLast (by simp)).2) ∧
      (0 : Nat) ≤ 19 :=
  C10_triple_shape [entFour] [0] (str "kick the bucket now") id
    [(entFour, 4, (0, 19))] (by decide) (entFour, 4, (0, 19)) (by decide)
